import Mathlib

set_option maxRecDepth 10000

/-!
Verification of `boost::dynamic_bitset` (repository `boostorg/dynamic_bitset`).

A dynamic bitset is a resizable sequence of bits stored in a little-endian
list of fixed-width unsigned "blocks".  We embed the data model shallowly:

* a block of width `w` is a `Nat` strictly below `2 ^ w`; machine-word
  truncation is written explicitly with `&&& full_mask w` or `% 2 ^ w`;
* the container `std::vector<Block> m_bits` is a `List Nat`;
* `size_type` values are `Nat`; the sentinel `npos` ("not found") is
  rendered by returning `Option Nat` with `none` for `npos`;
* exceptions are rendered with `Option`/`Except`.

The class template `dynamic_bitset` is declared in
`include/boost/dynamic_bitset/dynamic_bitset.hpp`; the bodies of its member
functions live in `impl/dynamic_bitset.ipp`, which is not part of the
source tree given here.  Definitions for those members are therefore
modelled from the specification (each such definition carries a doc
comment starting with `Modelled from the spec:`), following spec sections
4.1-4.5 (block store, bit addressing, range operator, bit scanner,
conversion layer) and the declared postconditions.  The helper headers
`detail/dynamic_bitset.hpp`, `detail/lowest_bit.hpp`,
`pending/lowest_bit.hpp` and `dynamic_bitset_iterator.hpp` are present in
full and are translated directly.
-/

namespace BoostDynamicBitset

/-- The state of a `dynamic_bitset< Block, Allocator >`: the block buffer
`m_bits` (index 0 = least significant block) and the logical bit count
`m_num_bits`.  The block width `bits_per_block` is passed around as a
parameter `w`. -/
structure DynBitset where
  m_bits : List Nat
  m_num_bits : Nat
  deriving Repr, DecidableEq

/-- `calc_num_blocks(num_bits) = num_bits / bits_per_block +
(num_bits % bits_per_block != 0)` — the number of blocks needed for
`num_bits` bits (spec §3: `num_blocks = ceil(bit_count / bits_per_block)`). -/
def calc_num_blocks (w num_bits : Nat) : Nat :=
  num_bits / w + (if num_bits % w = 0 then 0 else 1)

/-- `block_index(pos) = pos / bits_per_block` (spec §4.2). -/
def block_index (w pos : Nat) : Nat := pos / w

/-- `bit_index(pos) = pos % bits_per_block` (spec §4.2). -/
def bit_index (w pos : Nat) : Nat := pos % w

/-- `bit_mask(pos) = Block(1) << bit_index(pos)` (spec §4.2). -/
def bit_mask (w pos : Nat) : Nat := 1 <<< bit_index w pos

/-- `bit_mask(first, last)`: mask with exactly the bits `[first, last]` of
one block set (spec §4.2): the low mask through `last` with the low mask
below `first` removed. -/
def bit_mask_fl (first last : Nat) : Nat :=
  ((1 <<< (last + 1)) - 1) ^^^ ((1 <<< first) - 1)

/-- The all-ones block `~Block(0)`, i.e. the low `w` bits set. -/
def full_mask (w : Nat) : Nat := (1 <<< w) - 1

/-- `m_unchecked_test(pos)`: read bit `pos` as
`(m_bits[block_index(pos)] & bit_mask(pos)) != 0`.  Out-of-range block
indices read as the zero block (`getD` default), which is how every public
observer behaves once the zero-unused-bits invariant holds.
Modelled from the spec: body of `dynamic_bitset::m_unchecked_test`
(`impl/dynamic_bitset.ipp` is not in the source tree). -/
def m_unchecked_test (w : Nat) (b : DynBitset) (pos : Nat) : Bool :=
  (b.m_bits.getD (block_index w pos) 0) &&& bit_mask w pos != 0

/-- `count_extra_bits() = bit_index(size())`: the number of used bits in a
partial final block (0 when the size is block-aligned). -/
def count_extra_bits (w : Nat) (b : DynBitset) : Nat := bit_index w b.m_num_bits

/-- Modelled from the spec: `dynamic_bitset::m_zero_unused_bits` (body in
the missing `impl/dynamic_bitset.ipp`; declared at `dynamic_bitset.hpp`
line 1127).  If the bit count is not block-aligned, clear the bits of the
highest block at positions `>= count_extra_bits()` by and-ing with
`(Block(1) << extra_bits) - 1`. -/
def m_zero_unused_bits (w : Nat) (b : DynBitset) : DynBitset :=
  if count_extra_bits w b = 0 then b
  else
    ⟨b.m_bits.set (b.m_bits.length - 1)
      ((b.m_bits.getD (b.m_bits.length - 1) 0) &&& ((1 <<< count_extra_bits w b) - 1)),
     b.m_num_bits⟩

/-- Modelled from the spec: `dynamic_bitset::m_check_invariants` (declared
at `dynamic_bitset.hpp` line 1128; body in the missing
`impl/dynamic_bitset.ipp`).  It holds when the block count matches
`calc_num_blocks(size())`, every block fits in `bits_per_block` bits (a
typing fact in C++), and the unused high bits of a partial final block are
all zero (spec §3, core invariant "zero unused bits"). -/
def m_check_invariants (w : Nat) (b : DynBitset) : Bool :=
  (b.m_bits.length == calc_num_blocks w b.m_num_bits) &&
  b.m_bits.all (fun blk => blk < 2 ^ w) &&
  (count_extra_bits w b == 0 ||
    (b.m_bits.getD (b.m_bits.length - 1) 0) < 2 ^ count_extra_bits w b)

/-! ### Generic block-list builders -/

/-- Build a block list of length `n` whose `k`-th block is `f k`. -/
def buildBlocks (n : Nat) (f : Nat → Nat) : List Nat := (List.range n).map f

/-- Replace block `i` by `f` of its current value (reads out of range as 0;
writes out of range are dropped, as `List.set` does). -/
def update_block (bits : List Nat) (i : Nat) (f : Nat → Nat) : List Nat :=
  bits.set i (f (bits.getD i 0))

/-- The number whose bit `j` is `f j` for `j < k` (and 0 above). -/
def natOfBits (f : Nat → Bool) : Nat → Nat
  | 0 => 0
  | k + 1 => (if f 0 then 1 else 0) + 2 * natOfBits (fun j => f (j + 1)) k

/-! ### Single-bit and range mutators (spec §4.3) -/

/-- `set_block_bits(block, first, last, val)`: set or clear bits
`[first, last]` of one block (spec §4.3:
`block = (block & ~mask) | (val ? mask : 0)`). -/
def set_block_bits (w block first last : Nat) (val : Bool) : Nat :=
  if val then block ||| bit_mask_fl first last
  else block &&& (full_mask w ^^^ bit_mask_fl first last)

/-- Partial-block form of range set. -/
def set_block_part (w block first last : Nat) : Nat :=
  set_block_bits w block first last true

/-- Full-block form of range set: `block = ~0` (spec §4.3). -/
def set_block_full (w : Nat) (_block : Nat) : Nat := full_mask w

/-- Partial-block form of range reset. -/
def reset_block_part (w block first last : Nat) : Nat :=
  set_block_bits w block first last false

/-- Full-block form of range reset: `block = 0` (spec §4.3). -/
def reset_block_full (_block : Nat) : Nat := 0

/-- Partial-block form of range flip: `block ^= mask` (spec §4.3). -/
def flip_block_part (block first last : Nat) : Nat :=
  block ^^^ bit_mask_fl first last

/-- Full-block form of range flip: `block = ~block` (spec §4.3). -/
def flip_block_full (w block : Nat) : Nat := block ^^^ full_mask w

/-- One block of a range operation: dispatch the partial/full block forms
over the blocks covered by `[pos, pos + len)` (spec §4.3: split the range
into a possibly-partial first block, full middle blocks, and a
possibly-partial last block). -/
def range_op_block (w pos len : Nat) (pOp : Nat → Nat → Nat → Nat)
    (fOp : Nat → Nat) (i blk : Nat) : Nat :=
  let fb := block_index w pos
  let lb := block_index w (pos + len - 1)
  let fbi := bit_index w pos
  let lbi := bit_index w (pos + len - 1)
  if i < fb ∨ lb < i then blk
  else if fb = lb then pOp blk fbi lbi
  else if i = fb then (if fbi = 0 then fOp blk else pOp blk fbi (w - 1))
  else if i = lb then (if lbi = w - 1 then fOp blk else pOp blk 0 lbi)
  else fOp blk

/-- Modelled from the spec: `dynamic_bitset::range_operation` (declared at
`dynamic_bitset.hpp` line 1126; body in the missing
`impl/dynamic_bitset.ipp`).  Applies the partial/full dispatch of spec
§4.3 over `[pos, pos + len)`; `len == 0` is a no-op. -/
def range_operation (w : Nat) (b : DynBitset) (pos len : Nat)
    (pOp : Nat → Nat → Nat → Nat) (fOp : Nat → Nat) : DynBitset :=
  if len = 0 then b
  else
    ⟨buildBlocks b.m_bits.length
      (fun i => range_op_block w pos len pOp fOp i (b.m_bits.getD i 0)),
     b.m_num_bits⟩

/-- Modelled from the spec: `set(pos, len, val)` (dynamic_bitset.hpp lines
673-689): the range operation with the set forms when `val` and the reset
forms otherwise. -/
def set_range (w : Nat) (b : DynBitset) (pos len : Nat) (val : Bool) : DynBitset :=
  if val then range_operation w b pos len (set_block_part w) (set_block_full w)
  else range_operation w b pos len (reset_block_part w) reset_block_full

/-- Modelled from the spec: `reset(pos, len)` (dynamic_bitset.hpp lines
714-727): the range operation with the reset forms. -/
def reset_range (w : Nat) (b : DynBitset) (pos len : Nat) : DynBitset :=
  range_operation w b pos len (reset_block_part w) reset_block_full

/-- Modelled from the spec: `flip(pos, len)`: the range operation with the
flip forms. -/
def flip_range (w : Nat) (b : DynBitset) (pos len : Nat) : DynBitset :=
  range_operation w b pos len flip_block_part (flip_block_full w)

/-- Modelled from the spec: single-bit `set(pos, val)`: a direct
single-block mask update `m_bits[block_index(pos)] |= bit_mask(pos)` or
`&= ~bit_mask(pos)` (spec §4.3). -/
def set_bit (w : Nat) (b : DynBitset) (pos : Nat) (val : Bool) : DynBitset :=
  if val then
    ⟨update_block b.m_bits (block_index w pos) (fun blk => blk ||| bit_mask w pos),
     b.m_num_bits⟩
  else
    ⟨update_block b.m_bits (block_index w pos)
      (fun blk => blk &&& (full_mask w ^^^ bit_mask w pos)),
     b.m_num_bits⟩

/-- Modelled from the spec: single-bit `flip(pos)`:
`m_bits[block_index(pos)] ^= bit_mask(pos)`. -/
def flip_bit (w : Nat) (b : DynBitset) (pos : Nat) : DynBitset :=
  ⟨update_block b.m_bits (block_index w pos) (fun blk => blk ^^^ bit_mask w pos),
   b.m_num_bits⟩

/-- Modelled from the spec: `set()`: fill every block with `~0`, then
restore the zero-unused-bits invariant. -/
def set_all (w : Nat) (b : DynBitset) : DynBitset :=
  m_zero_unused_bits w ⟨b.m_bits.map (fun _ => full_mask w), b.m_num_bits⟩

/-- Modelled from the spec: `reset()`: fill every block with `0`. -/
def reset_all (b : DynBitset) : DynBitset :=
  ⟨b.m_bits.map (fun _ => 0), b.m_num_bits⟩

/-- Modelled from the spec: `flip()` (toggle every bit): complement every
block, then restore the zero-unused-bits invariant (spec §4.3: "flip of a
full last block can set extra bits momentarily; they must be cleared
before the call returns"). -/
def flip_all (w : Nat) (b : DynBitset) : DynBitset :=
  m_zero_unused_bits w ⟨b.m_bits.map (fun blk => blk ^^^ full_mask w), b.m_num_bits⟩

/-! ### Shifts -/

/-- One block of the left shift by `div` whole blocks plus `r` bits
(`0 < r < w`, or `r = 0` for the block-aligned case): block `i` receives
the old block `i - div` shifted up by `r` or-ed with the spill-over from
old block `i - div - 1`; the `div` vacated low blocks become zero. -/
def left_shift_block (w divb r : Nat) (old : List Nat) (i : Nat) : Nat :=
  if i < divb then 0
  else if r = 0 then old.getD (i - divb) 0
  else
    ((old.getD (i - divb) 0 <<< r) &&& full_mask w) |||
      (if i - divb = 0 then 0 else old.getD (i - divb - 1) 0 >>> (w - r))

/-- Modelled from the spec: `operator<<=` (declared at dynamic_bitset.hpp
lines 616-628; body in the missing `impl/dynamic_bitset.ipp`).  A shift by
`n >= size()` resets the whole vector; otherwise blocks move up by
`n / bits_per_block` positions with a bit-shift of `n % bits_per_block`
and carry between adjacent blocks, the vacated low end is zero-filled, and
the zero-unused-bits invariant is restored.  The spec fixes the per-bit
semantics ("the bit at position pos takes on the previous value of the bit
at position pos - n, or zero"), proved below. -/
def left_shift (w : Nat) (b : DynBitset) (n : Nat) : DynBitset :=
  if b.m_num_bits ≤ n then reset_all b
  else
    m_zero_unused_bits w
      ⟨buildBlocks b.m_bits.length (left_shift_block w (n / w) (n % w) b.m_bits),
       b.m_num_bits⟩

/-- One block of the right shift by `divb` whole blocks plus `r` bits:
block `i` receives the old block `i + divb` shifted down by `r` or-ed with
the spill-over from old block `i + divb + 1`; blocks past `last - divb`
become zero. -/
def right_shift_block (w divb r last : Nat) (old : List Nat) (i : Nat) : Nat :=
  if last < i + divb then 0
  else if r = 0 then old.getD (i + divb) 0
  else
    (old.getD (i + divb) 0 >>> r) |||
      (if i + divb = last then 0
       else (old.getD (i + divb + 1) 0 <<< (w - r)) &&& full_mask w)

/-- Modelled from the spec: `operator>>=` (declared at dynamic_bitset.hpp
lines 630-643): the mirror image of `operator<<=`, zero-filling the
vacated most-significant end. -/
def right_shift (w : Nat) (b : DynBitset) (n : Nat) : DynBitset :=
  if b.m_num_bits ≤ n then reset_all b
  else
    ⟨buildBlocks b.m_bits.length
      (right_shift_block w (n / w) (n % w) (b.m_bits.length - 1) b.m_bits),
     b.m_num_bits⟩

/-! ### Resize and constructions (spec §4.1, §4.5) -/

/-- `std::vector::resize(n, v)`: truncate or pad with `v`. -/
def list_resize (l : List Nat) (n v : Nat) : List Nat :=
  l.take n ++ List.replicate (n - l.length) v

/-- The fill block used by `resize`: all ones when growing with
`value = true`, zero otherwise. -/
def resize_fill (w : Nat) (value : Bool) : Nat := if value then full_mask w else 0

/-- The block buffer produced by `resize` before the final
`m_zero_unused_bits`: the buffer resized to `calc_num_blocks(num_bits)`
blocks padded with the fill block, and — when growing with `value = true`
from a non-block-aligned size — the newly exposed high bits of the old
partial top block set as well. -/
def resize_bits (w : Nat) (b : DynBitset) (num_bits : Nat) (value : Bool) : List Nat :=
  if value = true ∧ b.m_num_bits < num_bits ∧ count_extra_bits w b ≠ 0 then
    update_block (list_resize b.m_bits (calc_num_blocks w num_bits) (resize_fill w value))
      (b.m_bits.length - 1)
      (fun blk => blk ||| ((resize_fill w value <<< count_extra_bits w b) &&& full_mask w))
  else list_resize b.m_bits (calc_num_blocks w num_bits) (resize_fill w value)

/-- Modelled from the spec: `resize(num_bits, value)` (spec §4.1): grow or
shrink the buffer to `calc_num_blocks(num_bits)` blocks padding with the
fill block, set the newly-exposed bits of a partial old top block when
growing with `value = true`, and re-zero the new tail. -/
def resize (w : Nat) (b : DynBitset) (num_bits : Nat) (value : Bool) : DynBitset :=
  m_zero_unused_bits w ⟨resize_bits w b num_bits value, num_bits⟩

/-- Modelled from the spec: `init_from_block_range` (constructor from a
range of blocks, dynamic_bitset.hpp lines 315-387): the blocks are copied
and the size is `num_blocks * bits_per_block`. -/
def init_from_block_range (w : Nat) (blocks : List Nat) : DynBitset :=
  ⟨blocks, blocks.length * w⟩

/-- Modelled from the spec: `init_from_unsigned_long(num_bits, value)`
(constructor postconditions at dynamic_bitset.hpp lines 278-283, spec
§4.5): bit `i` of the vector is bit `i` of `value` for
`i < min(num_bits, ulong_width)` and 0 above.  `uw` is `ulong_width =
std::numeric_limits<unsigned long>::digits`; the `unsigned long` argument
is reduced `% 2 ^ uw` explicitly.  `ulong_init_value` is the initial
value with the bits at positions `>= min(num_bits, uw)` cleared. -/
def ulong_init_value (uw num_bits value : Nat) : Nat :=
  if num_bits < uw then value % 2 ^ uw % 2 ^ num_bits else value % 2 ^ uw

/-- See `ulong_init_value` just above: the constructor from an integer. -/
def init_from_unsigned_long (w uw num_bits value : Nat) : DynBitset :=
  ⟨buildBlocks (calc_num_blocks w num_bits)
    (fun k => (ulong_init_value uw num_bits value >>> (k * w)) &&& full_mask w),
   num_bits⟩

/-- Modelled from the spec: `init_from_string` for the default arguments
(`pos = 0`, `n = npos`, `num_bits = npos`; dynamic_bitset.hpp lines
291-313, spec §4.5): the size is the string length and the character at
string index `i` gives bit `length - 1 - i` (first character = most
significant bit); admissible characters are '0' and '1'. -/
def init_from_string (w : Nat) (s : List Char) : DynBitset :=
  ⟨buildBlocks (calc_num_blocks w s.length)
    (fun k => natOfBits
      (fun j => decide (k * w + j < s.length) &&
        (s.getD (s.length - 1 - (k * w + j)) '0' == '1')) w),
   s.length⟩

/-! ### Bit scanner (spec §4.4) -/

/-- `m_not_empty(x) = (x != 0)`: the block-level "any bits set" test. -/
def m_not_empty (x : Nat) : Bool := x != 0

/-- `boost::detail::lowest_bit(x)` (`detail/lowest_bit.hpp`, translated
directly): clear all set bits except the least significant one, then take
the base-2 logarithm (`boost::integer_log2`, an external boost
collaborator, is the floor base-2 logarithm, rendered as `Nat.log2`).
Precondition (asserted in the source): `x >= 1`. -/
def lowest_bit (x : Nat) : Nat := Nat.log2 (x - (x &&& (x - 1)))

/-- Count-trailing-zeros: the mathematical function computed by the
hardware intrinsic specializations (`__builtin_ctz`, `_BitScanForward`) of
`boost::lowest_bit` in `pending/lowest_bit.hpp` for arguments `>= 1`. -/
def ctz (x : Nat) : Nat :=
  if _h : x ≤ 1 then 0
  else if x % 2 = 1 then 0 else ctz (x / 2) + 1
decreasing_by exact Nat.div_lt_self (by omega) (by omega)

/-- Index of the first nonzero block of a list, if any. -/
def scan_blocks : List Nat → Option Nat
  | [] => none
  | x :: xs => if m_not_empty x then some 0 else (scan_blocks xs).map (· + 1)

/-- Modelled from the spec: `m_do_find_from(first_block)` (declared at
dynamic_bitset.hpp line 1131; spec §4.4): scan blocks from `first_block`
skipping zero blocks; the first nonzero block yields its index times
`bits_per_block` plus the lowest set bit of that block; `npos` (`none`)
when every block from `first_block` on is zero. -/
def m_do_find_from (w : Nat) (b : DynBitset) (first_block : Nat) : Option Nat :=
  match scan_blocks (b.m_bits.drop first_block) with
  | none => none
  | some j =>
      some ((first_block + j) * w + lowest_bit (b.m_bits.getD (first_block + j) 0))

/-- Modelled from the spec: `find_first()` (dynamic_bitset.hpp lines
1050-1059): the whole-block scan from block 0. -/
def find_first (w : Nat) (b : DynBitset) : Option Nat := m_do_find_from w b 0

/-- Modelled from the spec: `find_next(pos)` (dynamic_bitset.hpp lines
1074-1087; spec §4.4): `npos` on an empty vector or when `pos` is at or
past the maximum valid position; otherwise mask off the bits below
`pos + 1` within its block and continue the whole-block scan. -/
def find_next (w : Nat) (b : DynBitset) (pos : Nat) : Option Nat :=
  if b.m_num_bits = 0 ∨ b.m_num_bits - 1 ≤ pos then none
  else if (b.m_bits.getD (block_index w (pos + 1)) 0) &&&
      (full_mask w ^^^ ((1 <<< bit_index w (pos + 1)) - 1)) ≠ 0 then
    some (block_index w (pos + 1) * w +
      lowest_bit ((b.m_bits.getD (block_index w (pos + 1)) 0) &&&
        (full_mask w ^^^ ((1 <<< bit_index w (pos + 1)) - 1))))
  else m_do_find_from w b (block_index w (pos + 1) + 1)

/-- The naive per-bit linear scan the claims compare against: the first
index `i` with `start ≤ i < start + fuel` and `p i`. -/
def naive_find_in (p : Nat → Bool) : Nat → Nat → Option Nat
  | _start, 0 => none
  | start, fuel + 1 => if p start then some start else naive_find_in p (start + 1) fuel

/-- Naive linear-scan `find_first`: the lowest `i < size()` with bit `i`
set. -/
def naive_find_first (w : Nat) (b : DynBitset) : Option Nat :=
  naive_find_in (m_unchecked_test w b) 0 b.m_num_bits

/-- Naive linear-scan `find_next`: the lowest `i` with
`pos < i < size()` and bit `i` set. -/
def naive_find_next (w : Nat) (b : DynBitset) (pos : Nat) : Option Nat :=
  naive_find_in (m_unchecked_test w b) (pos + 1) (b.m_num_bits - (pos + 1))

/-! ### Numeric conversion -/

/-- Modelled from the spec: `to_ulong()` (dynamic_bitset.hpp lines
910-922): 0 for an empty bitset; `std::overflow_error` (rendered `none`)
when a bit at position `>= ulong_width` is set — detected, as the scanner
spec prescribes, by `find_next(ulong_width - 1) != npos`; otherwise the
value whose bit `i` is bit `i` of the bitset. -/
def to_ulong (w uw : Nat) (b : DynBitset) : Option Nat :=
  if b.m_num_bits = 0 then some 0
  else if find_next w b (uw - 1) ≠ none then none
  else some (natOfBits (m_unchecked_test w b) (min b.m_num_bits uw))

/-! ### Comparison and string form (spec §6) -/

/-- `operator==` (declared at dynamic_bitset.hpp lines 1226-1238):
equality of the size and of the block buffers.
Modelled from the spec: body in the missing `impl/dynamic_bitset.ipp`. -/
def dbs_beq (a b : DynBitset) : Bool :=
  a.m_num_bits == b.m_num_bits && a.m_bits == b.m_bits

/-- Lexicographic strict order on equal-length `Nat` lists, first element
most significant. -/
def lexLtNat : List Nat → List Nat → Bool
  | [], [] => false
  | [], _ :: _ => true
  | _ :: _, [] => false
  | x :: xs, y :: ys => decide (x < y) || (x == y && lexLtNat xs ys)

/-- The bits of the bitset most-significant first, as booleans. -/
def bit_seq_msb (w : Nat) (b : DynBitset) : List Bool :=
  (List.range b.m_num_bits).map
    (fun i => m_unchecked_test w b (b.m_num_bits - 1 - i))

/-- Lexicographic strict order on `Bool` lists (`false < true`), first
element most significant; a proper prefix is smaller. -/
def lexLtBool : List Bool → List Bool → Bool
  | [], [] => false
  | [], _ :: _ => true
  | _ :: _, [] => false
  | x :: xs, y :: ys => (!x && y) || (x == y && lexLtBool xs ys)

/-- `operator<` (declared at dynamic_bitset.hpp lines 1251-1263).
Modelled from the spec (§6: ordering is lexicographic by bit position,
consistent with string-form ordering; body in the missing
`impl/dynamic_bitset.ipp`): an empty vector is smaller than any non-empty
one; two vectors of equal size are compared block by block from the most
significant block down (not by padding to a common numeric value); vectors
of different sizes are compared bit by bit aligned at the most significant
end. -/
def dbs_lt (w : Nat) (a b : DynBitset) : Bool :=
  if b.m_num_bits = 0 then false
  else if a.m_num_bits = 0 then true
  else if a.m_num_bits = b.m_num_bits then lexLtNat a.m_bits.reverse b.m_bits.reverse
  else lexLtBool (bit_seq_msb w a) (bit_seq_msb w b)

/-- `boost::to_string(b, s)` (dynamic_bitset.hpp lines 1445-1468):
character position `i` in the string corresponds to bit position
`b.size() - 1 - i`.
Modelled from the spec: body in the missing `impl/dynamic_bitset.ipp`. -/
def to_string_chars (w : Nat) (b : DynBitset) : List Char :=
  (List.range b.m_num_bits).map
    (fun i => if m_unchecked_test w b (b.m_num_bits - 1 - i) then '1' else '0')

/-- Lexicographic strict order on character lists (by character code), a
proper prefix being smaller: the ordering of `std::basic_string`. -/
def strLtChar : List Char → List Char → Bool
  | [], [] => false
  | [], _ :: _ => true
  | _ :: _, [] => false
  | c :: cs, d :: ds => decide (c < d) || (c == d && strLtChar cs ds)

/-- The numeric value of a block list, least significant block first, in
base `2 ^ w`. -/
def blocksVal (w : Nat) : List Nat → Nat
  | [] => 0
  | x :: xs => x + 2 ^ w * blocksVal w xs

/-- The numeric value of a block list, MOST significant block first, in
base `2 ^ w`. -/
def bigEndianVal (w : Nat) : List Nat → Nat
  | [] => 0
  | x :: xs => x * 2 ^ (w * xs.length) + bigEndianVal w xs

/-- The numeric value of the whole bitset (bit `i` weighted `2 ^ i`). -/
def dbsVal (w : Nat) (b : DynBitset) : Nat :=
  natOfBits (m_unchecked_test w b) b.m_num_bits

/-- The bits of the bitset least-significant first (position 0 first), as
booleans. -/
def bit_seq_lsb (w : Nat) (b : DynBitset) : List Bool :=
  (List.range b.m_num_bits).map (m_unchecked_test w b)

/-- Rendering of the spec words "ordering is lexicographic by bit position
starting from index 0" taken literally (bit position 0 is the least
significant bit): compare the bit at position 0 first, then position 1,
and so on.  Stated only for comparison with `dbs_lt`; the two orders
differ. -/
def lex_by_bit_position_from_zero (w : Nat) (a b : DynBitset) : Bool :=
  lexLtBool (bit_seq_lsb w a) (bit_seq_lsb w b)

/-! ### Block-type admission (`detail/dynamic_bitset.hpp`, lines 119-136,
translated directly) -/

/-- The C++ integral types over which `allowed_block_type` can be
instantiated, with the width (value bits) of a common LP64 model. -/
inductive CppIntegral where
  | cbool
  | uchar
  | ushort
  | uint
  | ulong
  | ulonglong
  | schar
  | sshort
  | sint
  | slong
  | slonglong
  deriving Repr, DecidableEq

/-- Whether the C++ type is signed. -/
def cppIsSigned : CppIntegral → Bool
  | .schar => true
  | .sshort => true
  | .sint => true
  | .slong => true
  | .slonglong => true
  | _ => false

/-- Number of value bits of the C++ type (LP64). -/
def cppWidth : CppIntegral → Nat
  | .cbool => 1
  | .uchar => 8
  | .ushort => 16
  | .uint => 32
  | .ulong => 64
  | .ulonglong => 64
  | .schar => 7
  | .sshort => 15
  | .sint => 31
  | .slong => 63
  | .slonglong => 63

/-- The value of the C++ expression `T(-1)`: converting `-1` to `bool`
gives `true` (read as 1); to an unsigned type gives its maximum value; a
signed type keeps the value `-1`. -/
def cppCastMinusOne (t : CppIntegral) : Int :=
  match t with
  | .cbool => 1
  | t => if cppIsSigned t then -1 else 2 ^ cppWidth t - 1

/-- The C++ condition `T( -1 ) > 0` from the primary template of
`allowed_block_type` (detail/dynamic_bitset.hpp line 125: "ensure T has no
sign"). -/
def minus_one_positive (t : CppIntegral) : Bool := decide (0 < cppCastMinusOne t)

/-- `boost::detail::dynamic_bitset_impl::allowed_block_type< T >::value`:
the primary template evaluates `T( -1 ) > 0`; the explicit specialization
for `bool` (detail/dynamic_bitset.hpp lines 129-136) overrides it with
`false`. -/
def allowed_block_type (t : CppIntegral) : Bool :=
  match t with
  | .cbool => false
  | t => minus_one_positive t

/-- The `BOOST_STATIC_ASSERT( allowed_block_type< Block >::value )` at
`dynamic_bitset.hpp` line 57: instantiating `dynamic_bitset< Block >`
compiles exactly when this is `true`. -/
def dynamic_bitset_instantiates (t : CppIntegral) : Bool := allowed_block_type t

/-! ### The random-access iterator (`dynamic_bitset_iterator.hpp`,
translated directly; the claim concerns `dbs_iterator::operator*`,
lines 199-207) -/

/-- The state of a `boost::dbs_iterator< Container_t >`: the referenced
bitset is passed separately; `m_len` is the value `dbs.size()` captured by
the constructor, `m_pos` the current position. -/
structure dbs_iterator where
  m_len : Nat
  m_pos : Nat
  deriving Repr, DecidableEq

/-- The constructor `dbs_iterator(Container_t& dbs, size_type pos = 0)`:
it captures `m_len = dbs.size()` at construction time. -/
def dbs_iterator.mk_from (b : DynBitset) (pos : Nat) : dbs_iterator :=
  ⟨b.m_num_bits, pos⟩

/-- `operator++` / `operator+=` and friends only move `m_pos`. -/
def dbs_iterator.advance (it : dbs_iterator) (n : Nat) : dbs_iterator :=
  ⟨it.m_len, it.m_pos + n⟩

/-- `dbs_iterator::operator*`: throws `std::out_of_range` when
`m_pos >= m_len`, otherwise yields the bit `m_bs[m_pos]`.  The thrown
exception is rendered as `Except.error` with the source's message. -/
def dbs_iterator.deref (w : Nat) (it : dbs_iterator) (bs : DynBitset) :
    Except String Bool :=
  if it.m_len ≤ it.m_pos then
    Except.error "boost::dbs_iterator::operator*() out_of_range"
  else
    Except.ok (m_unchecked_test w bs it.m_pos)

/-! ## Helper lemmas: masks and bits -/

lemma dynBitset_ext {a b : DynBitset} (h1 : a.m_bits = b.m_bits)
    (h2 : a.m_num_bits = b.m_num_bits) : a = b := by
  cases a
  cases b
  cases h1
  cases h2
  rfl

lemma full_mask_eq (w : Nat) : full_mask w = 2 ^ w - 1 := by
  rw [full_mask, Nat.one_shiftLeft]

lemma testBit_full_mask (w j : Nat) : (full_mask w).testBit j = decide (j < w) := by
  rw [full_mask_eq, Nat.testBit_two_pow_sub_one]

lemma and_two_pow_sub_one (x n : Nat) : x &&& (2 ^ n - 1) = x % 2 ^ n := by
  apply Nat.eq_of_testBit_eq
  intro i
  rw [Nat.testBit_and, Nat.testBit_mod_two_pow, Nat.testBit_two_pow_sub_one]
  exact Bool.and_comm _ _

lemma testBit_bit_mask_fl (f l j : Nat) (h : f ≤ l + 1) :
    (bit_mask_fl f l).testBit j = decide (f ≤ j ∧ j ≤ l) := by
  rw [bit_mask_fl, Nat.one_shiftLeft, Nat.one_shiftLeft, Nat.testBit_xor,
    Nat.testBit_two_pow_sub_one, Nat.testBit_two_pow_sub_one]
  rcases Nat.lt_or_ge j f with h1 | h1 <;> rcases Nat.lt_or_ge j (l + 1) with h2 | h2 <;>
    simp [h1, h2, Nat.not_lt.mpr] <;> omega

lemma bit_mask_fl_lt (w f l : Nat) (hf : f ≤ l + 1) (h : l < w) :
    bit_mask_fl f l < 2 ^ w := by
  apply Nat.lt_pow_two_of_testBit
  intro j hj
  rw [testBit_bit_mask_fl f l j hf]
  simp
  omega

lemma uget_eq_testBit (w : Nat) (b : DynBitset) (pos : Nat) :
    m_unchecked_test w b pos = (b.m_bits.getD (pos / w) 0).testBit (pos % w) := by
  rw [m_unchecked_test, bit_mask, bit_index, Nat.one_shiftLeft, block_index,
    Nat.and_two_pow]
  have h2 : (2 : Nat) ^ (pos % w) ≠ 0 := (Nat.pos_pow_of_pos _ (by omega)).ne'
  cases hb : (b.m_bits.getD (pos / w) 0).testBit (pos % w) <;> simp [hb, h2]

/-! ## Helper lemmas: block lists -/

lemma getD_len_le {l : List Nat} {i : Nat} (h : l.length ≤ i) : l.getD i 0 = 0 := by
  rw [List.getD_eq_getElem?_getD, List.getElem?_eq_none h]
  rfl

lemma getD_eq_getElem {l : List Nat} {i : Nat} (h : i < l.length) :
    l.getD i 0 = l[i] := by
  rw [List.getD_eq_getElem?_getD, List.getElem?_eq_getElem h]
  rfl

lemma list_eq_of_getD {l1 l2 : List Nat} (hlen : l1.length = l2.length)
    (h : ∀ k, l1.getD k 0 = l2.getD k 0) : l1 = l2 := by
  apply List.ext_getElem?
  intro n
  rcases Nat.lt_or_ge n l1.length with hn | hn
  · rw [List.getElem?_eq_getElem hn, List.getElem?_eq_getElem (hlen ▸ hn)]
    have := h n
    rw [getD_eq_getElem hn, getD_eq_getElem (hlen ▸ hn)] at this
    rw [this]
  · rw [List.getElem?_eq_none hn, List.getElem?_eq_none (hlen ▸ hn)]

lemma length_buildBlocks (n : Nat) (f : Nat → Nat) : (buildBlocks n f).length = n := by
  rw [buildBlocks, List.length_map, List.length_range]

lemma getD_buildBlocks (n : Nat) (f : Nat → Nat) (i : Nat) :
    (buildBlocks n f).getD i 0 = if i < n then f i else 0 := by
  rw [buildBlocks, List.getD_eq_getElem?_getD, List.getElem?_map]
  rcases Nat.lt_or_ge i n with hi | hi
  · rw [List.getElem?_range hi]
    simp [hi]
  · rw [List.getElem?_eq_none (by simpa using hi)]
    simp [Nat.not_lt.mpr hi]

lemma getD_set_self {l : List Nat} {i j : Nat} {v : Nat} :
    (l.set i v).getD j 0 = if i = j ∧ i < l.length then v else l.getD j 0 := by
  rw [List.getD_eq_getElem?_getD, List.getD_eq_getElem?_getD, List.getElem?_set]
  rcases Decidable.em (i = j) with he | he
  · subst he
    rcases Nat.lt_or_ge i l.length with hi | hi
    · simp [hi]
    · simp [hi, Nat.not_lt.mpr hi, List.getElem?_eq_none hi]
  · simp [he]

lemma set_getD_self (l : List Nat) (i : Nat) : l.set i (l.getD i 0) = l := by
  apply list_eq_of_getD
  · rw [List.length_set]
  · intro k
    rw [getD_set_self]
    rcases Decidable.em (i = k ∧ i < l.length) with h | h
    · rw [if_pos h, h.1]
    · rw [if_neg h]

lemma mem_iff_getD {l : List Nat} {w : Nat} :
    (∀ x ∈ l, x < 2 ^ w) ↔ (∀ i, l.getD i 0 < 2 ^ w) := by
  constructor
  · intro h i
    rcases Nat.lt_or_ge i l.length with hi | hi
    · exact h _ (getD_eq_getElem hi ▸ l.getElem_mem hi)
    · rw [getD_len_le hi]
      exact Nat.pos_pow_of_pos _ (by omega)
  · intro h x hx
    obtain ⟨n, hn, hx⟩ := List.getElem_of_mem hx
    rw [← hx, ← getD_eq_getElem hn]
    exact h n

/-! ## Helper lemmas: `natOfBits` -/

lemma natOfBits_testBit (f : Nat → Bool) (k j : Nat) :
    (natOfBits f k).testBit j = (decide (j < k) && f j) := by
  induction k generalizing f j with
  | zero => simp [natOfBits]
  | succ n ih =>
      rw [natOfBits]
      cases j with
      | zero =>
          rw [Nat.testBit_zero]
          cases hf : f 0 <;> simp [hf] <;> omega
      | succ m =>
          rw [Nat.testBit_succ]
          have hdiv : ((if f 0 then 1 else 0) + 2 * natOfBits (fun j => f (j + 1)) n) / 2 =
              natOfBits (fun j => f (j + 1)) n := by
            cases f 0 <;> simp <;> omega
          rw [hdiv, ih]
          simp [Nat.succ_lt_succ_iff]

lemma natOfBits_lt (f : Nat → Bool) (k : Nat) : natOfBits f k < 2 ^ k := by
  apply Nat.lt_pow_two_of_testBit
  intro j hj
  rw [natOfBits_testBit]
  simp
  omega

lemma natOfBits_congr {f g : Nat → Bool} {k : Nat} (h : ∀ j, j < k → f j = g j) :
    natOfBits f k = natOfBits g k := by
  apply Nat.eq_of_testBit_eq
  intro i
  rw [natOfBits_testBit, natOfBits_testBit]
  rcases Nat.lt_or_ge i k with hi | hi
  · simp [hi, h i hi]
  · simp [Nat.not_lt.mpr hi]

lemma natOfBits_eq_self {x k : Nat} (h : x < 2 ^ k) : natOfBits (x.testBit) k = x := by
  apply Nat.eq_of_testBit_eq
  intro i
  rw [natOfBits_testBit]
  rcases Nat.lt_or_ge i k with hi | hi
  · simp [hi]
  · have : x < 2 ^ i := lt_of_lt_of_le h (Nat.pow_le_pow_right (by omega) hi)
    simp [Nat.not_lt.mpr hi, Nat.testBit_lt_two_pow this]

lemma natOfBits_split (f : Nat → Bool) (m n : Nat) :
    natOfBits f (n + m) = natOfBits f n + 2 ^ n * natOfBits (fun j => f (j + n)) m := by
  induction n generalizing f with
  | zero => simp [natOfBits]
  | succ k ih =>
      have hrw : k + 1 + m = (k + m) + 1 := by omega
      rw [hrw, natOfBits, natOfBits, ih (fun j => f (j + 1))]
      have hc : natOfBits (fun j => f (j + k + 1)) m =
          natOfBits (fun j => f (j + (k + 1))) m := by
        apply natOfBits_congr
        intro j _
        rfl
      rw [hc]
      ring

/-! ## Helper lemmas: `ctz` and `lowest_bit` -/

lemma ctz_odd (x : Nat) (h : x % 2 = 1) : ctz x = 0 := by
  rw [ctz]
  rcases le_or_lt x 1 with h1 | h1
  · simp [h1]
  · simp [Nat.not_le.mpr h1, h]

lemma ctz_even (x : Nat) (h2 : 2 ≤ x) (h : x % 2 = 0) : ctz x = ctz (x / 2) + 1 := by
  rw [ctz]
  have : ¬ x ≤ 1 := by omega
  simp [this, h]

lemma testBit_double (a i : Nat) : (2 * a).testBit (i + 1) = a.testBit i := by
  rw [Nat.testBit_succ]
  congr 1
  omega

lemma testBit_double_zero (a : Nat) : (2 * a).testBit 0 = false := by
  rw [Nat.testBit_zero]
  simp [Nat.mul_mod_right]

lemma testBit_double_add_one (a i : Nat) : (2 * a + 1).testBit (i + 1) = a.testBit i := by
  rw [Nat.testBit_succ]
  congr 1
  omega

/-- `(2a+1) & 2a = 2a`: and-ing an odd number with its predecessor clears
only bit 0. -/
lemma and_odd_pred (a : Nat) : (2 * a + 1) &&& (2 * a) = 2 * a := by
  apply Nat.eq_of_testBit_eq
  intro i
  rw [Nat.testBit_and]
  cases i with
  | zero => simp [testBit_double_zero]
  | succ j => rw [testBit_double_add_one, testBit_double]; cases a.testBit j <;> rfl

/-- `(2a) & (2a - 1) = 2 * (a & (a - 1))` for `a ≥ 1`. -/
lemma and_even_pred (a : Nat) (ha : 1 ≤ a) :
    (2 * a) &&& (2 * a - 1) = 2 * (a &&& (a - 1)) := by
  have hrw : 2 * a - 1 = 2 * (a - 1) + 1 := by omega
  apply Nat.eq_of_testBit_eq
  intro i
  rw [Nat.testBit_and]
  cases i with
  | zero => simp [testBit_double_zero]
  | succ j =>
      rw [hrw, testBit_double, testBit_double_add_one, testBit_double, Nat.testBit_and]

/-- Clearing all bits except the least significant leaves exactly
`2 ^ ctz x`. -/
lemma sub_and_pred_eq_two_pow_ctz (x : Nat) (hx : 1 ≤ x) :
    x - (x &&& (x - 1)) = 2 ^ ctz x := by
  induction x using Nat.strong_induction_on with
  | _ x ih =>
    rcases Nat.even_or_odd x with he | ho
    · obtain ⟨a, ha⟩ := he
      have ha2 : x = 2 * a := by omega
      have ha1 : 1 ≤ a := by omega
      have hand : x &&& (x - 1) = 2 * (a &&& (a - 1)) := by
        rw [ha2]; exact and_even_pred a ha1
      have hle : a &&& (a - 1) ≤ a := Nat.and_le_left
      have hihv : a - (a &&& (a - 1)) = 2 ^ ctz a := ih a (by omega) ha1
      have hctz : ctz x = ctz a + 1 := by
        have := ctz_even x (by omega) (by omega)
        rw [this, ha2]
        congr 2
        omega
      rw [hand, hctz, pow_succ]
      omega
    · have hodd : x % 2 = 1 := Nat.odd_iff.mp ho
      obtain ⟨a, ha⟩ := ho
      have hand : x &&& (x - 1) = 2 * a := by
        have h1 : x - 1 = 2 * a := by omega
        rw [h1, ha]
        exact and_odd_pred a
      rw [hand, ctz_odd x hodd]
      omega

/-- `ctz x` is the position of the least significant set bit of `x ≥ 1`. -/
lemma ctz_spec (x : Nat) (hx : 1 ≤ x) :
    x.testBit (ctz x) = true ∧ ∀ j, j < ctz x → x.testBit j = false := by
  induction x using Nat.strong_induction_on with
  | _ x ih =>
    rcases Nat.even_or_odd x with he | ho
    · obtain ⟨a, ha⟩ := he
      have ha2 : x = 2 * a := by omega
      have ha1 : 1 ≤ a := by omega
      have hctz : ctz x = ctz a + 1 := by
        have := ctz_even x (by omega) (by omega)
        rw [this, ha2]
        congr 2
        omega
      obtain ⟨hbit, hlow⟩ := ih a (by omega) ha1
      constructor
      · rw [hctz, ha2, testBit_double]; exact hbit
      · intro j hj
        cases j with
        | zero => rw [ha2]; exact testBit_double_zero a
        | succ k =>
            rw [ha2, testBit_double]
            exact hlow k (by omega)
    · have hodd : x % 2 = 1 := Nat.odd_iff.mp ho
      rw [ctz_odd x hodd]
      refine ⟨?_, fun j hj => absurd hj (by omega)⟩
      rw [Nat.testBit_zero]
      simp [hodd]

/-- The generic `lowest_bit` (bit-trick plus logarithm) computes exactly
count-trailing-zeros. -/
lemma lowest_bit_eq_ctz (x : Nat) (hx : 1 ≤ x) : lowest_bit x = ctz x := by
  rw [lowest_bit, sub_and_pred_eq_two_pow_ctz x hx, Nat.log2_two_pow]

/-- `lowest_bit x < w` whenever `1 ≤ x < 2 ^ w`. -/
lemma lowest_bit_lt (x w : Nat) (hx : 1 ≤ x) (hw : x < 2 ^ w) : lowest_bit x < w := by
  rw [lowest_bit_eq_ctz x hx]
  by_contra hc
  push_neg at hc
  have hb := (ctz_spec x hx).1
  have : x < 2 ^ ctz x :=
    lt_of_lt_of_le hw (Nat.pow_le_pow_right (by omega) hc)
  rw [Nat.testBit_lt_two_pow this] at hb
  exact Bool.false_ne_true hb

/-! ## Helper lemmas: division bookkeeping -/

lemma div_mod_unique {w q r i : Nat} (hw : 0 < w) (hi : i = w * q + r) (hr : r < w) :
    i / w = q ∧ i % w = r := by
  subst hi
  constructor
  · rw [Nat.add_comm, Nat.add_mul_div_left _ _ hw, Nat.div_eq_of_lt hr]
    omega
  · rw [Nat.add_comm, Nat.add_mul_mod_self_left, Nat.mod_eq_of_lt hr]

lemma size_le_mul_calc (w n : Nat) (hw : 0 < w) : n ≤ w * calc_num_blocks w n := by
  rw [calc_num_blocks]
  have h := Nat.div_add_mod n w
  rcases Decidable.em (n % w = 0) with h0 | h0
  · simp [h0]
    omega
  · simp [h0]
    have : n % w < w := Nat.mod_lt _ hw
    rw [Nat.mul_add]
    omega

lemma calc_block_aligned (w L : Nat) (hw : 0 < w) : calc_num_blocks w (L * w) = L := by
  rw [calc_num_blocks, Nat.mul_div_cancel _ hw, Nat.mul_mod_left]
  simp

lemma div_lt_calc (w n pos : Nat) (hw : 0 < w) (h : pos < n) :
    pos / w < calc_num_blocks w n := by
  have h1 : pos < w * calc_num_blocks w n := lt_of_lt_of_le h (size_le_mul_calc w n hw)
  rw [Nat.div_lt_iff_lt_mul hw]
  have h2 : calc_num_blocks w n * w = w * calc_num_blocks w n := Nat.mul_comm _ _
  omega

lemma calc_last_block (w n : Nat) (h0 : n % w ≠ 0) :
    calc_num_blocks w n = n / w + 1 := by
  rw [calc_num_blocks]
  simp [h0]

lemma calc_aligned_eq (w n : Nat) (h0 : n % w = 0) : calc_num_blocks w n = n / w := by
  rw [calc_num_blocks]
  simp [h0]

/-! ## Helper lemmas: the invariant predicate -/

lemma check_iff (w : Nat) (b : DynBitset) :
    m_check_invariants w b = true ↔
      (b.m_bits.length = calc_num_blocks w b.m_num_bits ∧
       (∀ i, b.m_bits.getD i 0 < 2 ^ w) ∧
       (count_extra_bits w b = 0 ∨
         b.m_bits.getD (b.m_bits.length - 1) 0 < 2 ^ count_extra_bits w b)) := by
  rw [m_check_invariants]
  simp only [Bool.and_eq_true, beq_iff_eq, List.all_eq_true, decide_eq_true_eq,
    Bool.or_eq_true]
  rw [mem_iff_getD]
  tauto

/-- Under the invariant, no position at or beyond the size reads as set:
the "no public observer ever reports a set bit at position `>= bit_count`"
half of the core invariant. -/
lemma check_unused (w : Nat) (b : DynBitset) (hw : 0 < w)
    (hchk : m_check_invariants w b = true) :
    ∀ pos, b.m_num_bits ≤ pos → m_unchecked_test w b pos = false := by
  obtain ⟨hlen, hbound, hlast⟩ := (check_iff w b).mp hchk
  intro pos hpos
  rw [uget_eq_testBit]
  have hdivle : b.m_num_bits / w ≤ pos / w := Nat.div_le_div_right hpos
  rcases Nat.lt_or_ge (pos / w) b.m_bits.length with hblk | hblk
  · -- the position falls inside the buffer: it must be in a partial last
    -- block, above the extra bits
    have hmod : b.m_num_bits % w ≠ 0 := by
      intro h0
      rw [hlen, calc_aligned_eq w b.m_num_bits h0] at hblk
      exact absurd hblk (Nat.not_lt.mpr hdivle)
    have hcalc := calc_last_block w b.m_num_bits hmod
    have hdiveq : pos / w = b.m_num_bits / w := by
      rw [hlen, hcalc] at hblk
      exact Nat.le_antisymm (Nat.lt_succ_iff.mp hblk) hdivle
    have hlastidx : pos / w = b.m_bits.length - 1 := by
      rw [hlen, hcalc, Nat.add_sub_cancel, hdiveq]
    have hextra : count_extra_bits w b = b.m_num_bits % w := rfl
    have hlast2 : b.m_bits.getD (pos / w) 0 < 2 ^ (b.m_num_bits % w) := by
      rw [hlastidx]
      rcases hlast with h | h
      · rw [hextra] at h; omega
      · rw [hextra] at h; exact h
    apply Nat.testBit_lt_two_pow
    apply lt_of_lt_of_le hlast2
    apply Nat.pow_le_pow_right (by omega)
    -- pos % w ≥ num_bits % w because pos ≥ num_bits and both are in the
    -- same block
    have he1 : w * (pos / w) + pos % w = pos := Nat.div_add_mod pos w
    have he2 : w * (b.m_num_bits / w) + b.m_num_bits % w = b.m_num_bits :=
      Nat.div_add_mod b.m_num_bits w
    rw [hdiveq] at he1
    omega
  · rw [getD_len_le hblk]
    exact Nat.zero_testBit _

/-- Build the invariant from its parts: correct length, bounded blocks,
and the per-bit unused-is-zero property. -/
lemma check_of_parts (w : Nat) (b : DynBitset) (hw : 0 < w)
    (hlen : b.m_bits.length = calc_num_blocks w b.m_num_bits)
    (hbound : ∀ i, b.m_bits.getD i 0 < 2 ^ w)
    (hunused : ∀ pos, b.m_num_bits ≤ pos → m_unchecked_test w b pos = false) :
    m_check_invariants w b = true := by
  rw [check_iff]
  refine ⟨hlen, hbound, ?_⟩
  rcases Decidable.em (count_extra_bits w b = 0) with h0 | h0
  · exact Or.inl h0
  · right
    have hmod : b.m_num_bits % w ≠ 0 := h0
    have hcalc := calc_last_block w b.m_num_bits hmod
    apply Nat.lt_pow_two_of_testBit
    intro j hj
    rcases Nat.lt_or_ge j w with hjw | hjw
    · have hpos : b.m_num_bits ≤ w * (b.m_num_bits / w) + j := by
        have := Nat.div_add_mod b.m_num_bits w
        rw [count_extra_bits, bit_index] at hj
        omega
      have := hunused (w * (b.m_num_bits / w) + j) hpos
      rw [uget_eq_testBit] at this
      obtain ⟨hd, hm⟩ := div_mod_unique hw rfl hjw
      rw [hd, hm] at this
      have hidx : b.m_num_bits / w = b.m_bits.length - 1 := by
        rw [hlen, hcalc, Nat.add_sub_cancel]
      rw [hidx] at this
      exact this
    · exact Nat.testBit_lt_two_pow
        (lt_of_lt_of_le (hbound _) (Nat.pow_le_pow_right (by omega) hjw))

/-! ## Helper lemmas: `m_zero_unused_bits` -/

lemma zub_num_bits (w : Nat) (b : DynBitset) :
    (m_zero_unused_bits w b).m_num_bits = b.m_num_bits := by
  rw [m_zero_unused_bits]
  rcases Decidable.em (count_extra_bits w b = 0) with h | h <;> simp [h]

lemma zub_length (w : Nat) (b : DynBitset) :
    (m_zero_unused_bits w b).m_bits.length = b.m_bits.length := by
  rw [m_zero_unused_bits]
  rcases Decidable.em (count_extra_bits w b = 0) with h | h <;> simp [h]

lemma zub_getD (w : Nat) (b : DynBitset) (i : Nat) :
    (m_zero_unused_bits w b).m_bits.getD i 0 =
      if count_extra_bits w b ≠ 0 ∧ i = b.m_bits.length - 1 then
        (b.m_bits.getD i 0) &&& (2 ^ count_extra_bits w b - 1)
      else b.m_bits.getD i 0 := by
  rw [m_zero_unused_bits]
  rcases Decidable.em (count_extra_bits w b = 0) with h | h
  · simp [h]
  · rw [if_neg h]
    show (b.m_bits.set _ _).getD i 0 = _
    rw [getD_set_self, Nat.one_shiftLeft]
    rcases Decidable.em (b.m_bits.length - 1 = i ∧ b.m_bits.length - 1 < b.m_bits.length)
      with hc | hc
    · rw [if_pos hc, if_pos ⟨h, hc.1.symm⟩, hc.1]
    · rw [if_neg hc]
      rcases Decidable.em (i = b.m_bits.length - 1) with he | he
      · subst he
        have hz : b.m_bits.length = 0 := by omega
        rw [if_pos ⟨h, rfl⟩, getD_len_le (by omega), Nat.zero_and]
      · rw [if_neg (by tauto)]

lemma zub_uget (w : Nat) (b : DynBitset) (hw : 0 < w)
    (hlen : b.m_bits.length = calc_num_blocks w b.m_num_bits)
    (pos : Nat) (hpos : pos < b.m_num_bits) :
    m_unchecked_test w (m_zero_unused_bits w b) pos = m_unchecked_test w b pos := by
  rw [uget_eq_testBit, uget_eq_testBit, zub_getD]
  rcases Decidable.em (count_extra_bits w b ≠ 0 ∧ pos / w = b.m_bits.length - 1)
    with hc | hc
  · rw [if_pos hc]
    obtain ⟨h0, hidx⟩ := hc
    have hmod : b.m_num_bits % w ≠ 0 := h0
    have hcalc := calc_last_block w b.m_num_bits hmod
    have hdiveq : pos / w = b.m_num_bits / w := by
      rw [hlen, hcalc, Nat.add_sub_cancel] at hidx
      exact hidx
    have hmw : pos % w < count_extra_bits w b := by
      have he1 : w * (pos / w) + pos % w = pos := Nat.div_add_mod pos w
      have he2 : w * (b.m_num_bits / w) + b.m_num_bits % w = b.m_num_bits :=
        Nat.div_add_mod b.m_num_bits w
      rw [hdiveq] at he1
      have hextra : count_extra_bits w b = b.m_num_bits % w := rfl
      omega
    rw [Nat.testBit_and, Nat.testBit_two_pow_sub_one]
    simp [hmw]
  · rw [if_neg hc]

lemma zub_unused (w : Nat) (b : DynBitset) (hw : 0 < w)
    (hlen : b.m_bits.length = calc_num_blocks w b.m_num_bits)
    (hbound : ∀ i, b.m_bits.getD i 0 < 2 ^ w) :
    ∀ pos, b.m_num_bits ≤ pos → m_unchecked_test w (m_zero_unused_bits w b) pos = false := by
  intro pos hpos
  rw [uget_eq_testBit, zub_getD]
  have hdivle : b.m_num_bits / w ≤ pos / w := Nat.div_le_div_right hpos
  rcases Nat.lt_or_ge (pos / w) b.m_bits.length with hblk | hblk
  · have hmod : b.m_num_bits % w ≠ 0 := by
      intro h0
      rw [hlen, calc_aligned_eq w b.m_num_bits h0] at hblk
      exact absurd hblk (Nat.not_lt.mpr hdivle)
    have hcalc := calc_last_block w b.m_num_bits hmod
    have hdiveq : pos / w = b.m_num_bits / w := by
      rw [hlen, hcalc] at hblk
      exact Nat.le_antisymm (Nat.lt_succ_iff.mp hblk) hdivle
    have hidx : pos / w = b.m_bits.length - 1 := by
      rw [hlen, hcalc, Nat.add_sub_cancel, hdiveq]
    rw [if_pos ⟨hmod, hidx⟩]
    apply Nat.testBit_lt_two_pow
    have hbnd : (b.m_bits.getD (pos / w) 0) &&& (2 ^ count_extra_bits w b - 1) <
        2 ^ count_extra_bits w b := by
      apply Nat.lt_of_le_of_lt Nat.and_le_right
      have : (0 : Nat) < 2 ^ count_extra_bits w b := Nat.pos_pow_of_pos _ (by omega)
      omega
    apply lt_of_lt_of_le hbnd
    apply Nat.pow_le_pow_right (by omega)
    have he1 : w * (pos / w) + pos % w = pos := Nat.div_add_mod pos w
    have he2 : w * (b.m_num_bits / w) + b.m_num_bits % w = b.m_num_bits :=
      Nat.div_add_mod b.m_num_bits w
    rw [hdiveq] at he1
    have hextra : count_extra_bits w b = b.m_num_bits % w := rfl
    omega
  · rw [if_neg ?_]
    · rw [getD_len_le hblk]
      exact Nat.zero_testBit _
    · intro hc
      rw [hc.2] at hblk
      have hz : b.m_bits.length = 0 := by omega
      rw [hz] at hlen
      have hcz : calc_num_blocks w b.m_num_bits = 0 := hlen.symm
      rw [calc_last_block w _ hc.1] at hcz
      exact absurd hcz (Nat.succ_ne_zero _)

/-- Restoring the invariant: after `m_zero_unused_bits`, a buffer with the
right length and bounded blocks satisfies `m_check_invariants`. -/
lemma zub_check (w : Nat) (b : DynBitset) (hw : 0 < w)
    (hlen : b.m_bits.length = calc_num_blocks w b.m_num_bits)
    (hbound : ∀ i, b.m_bits.getD i 0 < 2 ^ w) :
    m_check_invariants w (m_zero_unused_bits w b) = true := by
  apply check_of_parts w _ hw
  · rw [zub_length, zub_num_bits, hlen]
  · intro i
    rw [zub_getD]
    rcases Decidable.em (count_extra_bits w b ≠ 0 ∧ i = b.m_bits.length - 1) with hc | hc
    · rw [if_pos hc]
      exact Nat.lt_of_le_of_lt Nat.and_le_left (hbound i)
    · rw [if_neg hc]
      exact hbound i
  · rw [zub_num_bits]
    exact zub_unused w b hw hlen hbound

/-! ## Helper lemmas: converting block-index comparisons to positions -/

lemma lt_mul_of_div_lt {w x q : Nat} (hw : 0 < w) (h : x / w < q) : x < w * q := by
  have h1 : w * (x / w) + x % w = x := Nat.div_add_mod x w
  have h2 : x % w < w := Nat.mod_lt _ hw
  have h3 : w * (x / w + 1) ≤ w * q := Nat.mul_le_mul_left w h
  have h4 : w * (x / w + 1) = w * (x / w) + w := by ring
  omega

lemma mul_le_of_le_div {w x q : Nat} (h : q ≤ x / w) : w * q ≤ x := by
  have h1 : w * (x / w) + x % w = x := Nat.div_add_mod x w
  have h3 : w * q ≤ w * (x / w) := Nat.mul_le_mul_left w h
  omega

/-! ## Helper lemmas: the range operation, bit by bit -/

/-- Each block produced by `range_op_block` stays below `2 ^ w`. -/
lemma range_op_block_bound (w pos len : Nat) (hw : 0 < w)
    (pOp : Nat → Nat → Nat → Nat) (fOp : Nat → Nat)
    (hpb : ∀ blk f l, blk < 2 ^ w → f < w → l < w → pOp blk f l < 2 ^ w)
    (hfb : ∀ blk, blk < 2 ^ w → fOp blk < 2 ^ w)
    (i blk : Nat) (hblk : blk < 2 ^ w) :
    range_op_block w pos len pOp fOp i blk < 2 ^ w := by
  have hfbi : pos % w < w := Nat.mod_lt _ hw
  have hlbi : (pos + len - 1) % w < w := Nat.mod_lt _ hw
  rw [range_op_block]
  simp only [block_index, bit_index]
  split_ifs
  · exact hblk
  · exact hpb _ _ _ hblk hfbi hlbi
  · exact hfb _ hblk
  · exact hpb _ _ _ hblk hfbi (by omega)
  · exact hfb _ hblk
  · exact hpb _ _ _ hblk (by omega) hlbi
  · exact hfb _ hblk

/-- The central per-bit description of `range_operation`: inside
`[pos, pos + len)` the transform `g` realized by the partial/full block
forms is applied, outside every bit is untouched. -/
lemma range_op_uget (w : Nat) (hw : 0 < w) (b : DynBitset) (pos len : Nat)
    (pOp : Nat → Nat → Nat → Nat) (fOp : Nat → Nat) (g : Bool → Bool)
    (hbound : ∀ i, b.m_bits.getD i 0 < 2 ^ w)
    (hrange : pos + len ≤ w * b.m_bits.length)
    (hp : ∀ blk f l j, blk < 2 ^ w → f ≤ l → l < w →
      (pOp blk f l).testBit j = if f ≤ j ∧ j ≤ l then g (blk.testBit j) else blk.testBit j)
    (hf : ∀ blk j, blk < 2 ^ w → j < w → (fOp blk).testBit j = g (blk.testBit j))
    (i : Nat) :
    m_unchecked_test w (range_operation w b pos len pOp fOp) i =
      if pos ≤ i ∧ i < pos + len then g (m_unchecked_test w b i)
      else m_unchecked_test w b i := by
  rcases Decidable.em (len = 0) with h0 | h0
  · rw [range_operation, if_pos h0, if_neg (by omega)]
  · rw [range_operation, if_neg h0, uget_eq_testBit, uget_eq_testBit]
    show ((buildBlocks b.m_bits.length _).getD (i / w) 0).testBit (i % w) = _
    rw [getD_buildBlocks]
    have hdfb : w * (pos / w) + pos % w = pos := Nat.div_add_mod pos w
    have hdlb : w * ((pos + len - 1) / w) + (pos + len - 1) % w = pos + len - 1 :=
      Nat.div_add_mod _ w
    have hdi : w * (i / w) + i % w = i := Nat.div_add_mod i w
    have hfbiw : pos % w < w := Nat.mod_lt _ hw
    have hlbiw : (pos + len - 1) % w < w := Nat.mod_lt _ hw
    have hirw : i % w < w := Nat.mod_lt _ hw
    rcases Nat.lt_or_ge (i / w) b.m_bits.length with hiL | hiL
    case inr =>
      -- beyond the buffer: both sides read zero
      rw [if_neg (Nat.not_lt.mpr hiL), getD_len_le hiL]
      have hge : w * b.m_bits.length ≤ i := mul_le_of_le_div hiL
      rw [if_neg (by omega)]
    case inl =>
    rw [if_pos hiL, range_op_block]
    simp only [block_index, bit_index]
    rcases Decidable.em (i / w < pos / w ∨ (pos + len - 1) / w < i / w) with hout | hout
    · -- untouched block: the position is outside the range
      rw [if_pos hout]
      rcases hout with hlt | hgt
      · have h1 : i < w * (pos / w) := lt_mul_of_div_lt hw hlt
        rw [if_neg (by omega)]
      · have h1 : w * ((pos + len - 1) / w + 1) ≤ i :=
          mul_le_of_le_div (by omega)
        have h2 : w * ((pos + len - 1) / w + 1) = w * ((pos + len - 1) / w) + w := by
          ring
        rw [if_neg (by omega)]
    · rw [if_neg hout]
      push_neg at hout
      obtain ⟨hfble, hlble⟩ := hout
      rcases Decidable.em (pos / w = (pos + len - 1) / w) with heq | heq
      · -- single-block range
        rw [if_pos heq]
        have hqi : i / w = pos / w := by omega
        rw [← heq] at hdlb
        rw [← hqi] at hdfb hdlb
        rw [hp _ _ _ _ (hbound _) (by omega) hlbiw]
        rcases Decidable.em (pos ≤ i ∧ i < pos + len) with hin | hin
        · rw [if_pos hin, if_pos (by omega)]
        · rw [if_neg hin, if_neg (by omega)]
      · rw [if_neg heq]
        have hfblb : pos / w < (pos + len - 1) / w :=
          lt_of_le_of_ne (Nat.div_le_div_right (by omega)) heq
        rcases Decidable.em (i / w = pos / w) with hqfb | hqfb
        · -- first, possibly partial, block of a multi-block range
          rw [if_pos hqfb]
          have hlt : i < w * ((pos + len - 1) / w) := by
            apply lt_mul_of_div_lt hw
            omega
          rw [← hqfb] at hdfb
          rcases Decidable.em (pos % w = 0) with hz | hz
          · rw [if_pos hz, hf _ _ (hbound _) hirw, if_pos (by omega)]
          · rw [if_neg hz, hp _ _ _ _ (hbound _) (by omega) (by omega)]
            rcases Decidable.em (pos ≤ i ∧ i < pos + len) with hin | hin
            · rw [if_pos hin, if_pos (by omega)]
            · rw [if_neg hin, if_neg (by omega)]
        · rw [if_neg hqfb]
          have hfbq : pos / w < i / w := by omega
          have hpos_lt : pos < i := by
            have h1 : w * (pos / w + 1) ≤ w * (i / w) :=
              Nat.mul_le_mul_left w (by omega)
            have h2 : w * (pos / w + 1) = w * (pos / w) + w := by ring
            omega
          rcases Decidable.em (i / w = (pos + len - 1) / w) with hqlb | hqlb
          · -- last, possibly partial, block of a multi-block range
            rw [if_pos hqlb]
            rw [← hqlb] at hdlb
            rcases Decidable.em ((pos + len - 1) % w = w - 1) with hz | hz
            · rw [if_pos hz, hf _ _ (hbound _) hirw, if_pos (by omega)]
            · rw [if_neg hz, hp _ _ _ _ (hbound _) (by omega) (by omega)]
              rcases Decidable.em (pos ≤ i ∧ i < pos + len) with hin | hin
              · rw [if_pos hin, if_pos (by omega)]
              · rw [if_neg hin, if_neg (by omega)]
          · -- full middle block
            rw [if_neg hqlb]
            have hqlt : i / w < (pos + len - 1) / w := by omega
            have hlt : i < w * ((pos + len - 1) / w) := lt_mul_of_div_lt hw hqlt
            rw [hf _ _ (hbound _) hirw, if_pos (by omega)]

/-! ## Helper lemmas: the concrete partial/full block forms -/

lemma set_part_testBit (w blk f l j : Nat) (_hb : blk < 2 ^ w) (hfl : f ≤ l)
    (_hlw : l < w) :
    (set_block_part w blk f l).testBit j =
      if f ≤ j ∧ j ≤ l then (fun _ => true) (blk.testBit j) else blk.testBit j := by
  show (blk ||| bit_mask_fl f l).testBit j = _
  rw [Nat.testBit_or, testBit_bit_mask_fl f l j (by omega)]
  rcases Decidable.em (f ≤ j ∧ j ≤ l) with hc | hc
  · simp [hc]
  · simp [hc]

lemma reset_part_testBit (w blk f l j : Nat) (hb : blk < 2 ^ w) (hfl : f ≤ l)
    (hlw : l < w) :
    (reset_block_part w blk f l).testBit j =
      if f ≤ j ∧ j ≤ l then (fun _ => false) (blk.testBit j) else blk.testBit j := by
  show (blk &&& (full_mask w ^^^ bit_mask_fl f l)).testBit j = _
  rw [Nat.testBit_and, Nat.testBit_xor, testBit_full_mask,
    testBit_bit_mask_fl f l j (by omega)]
  rcases Decidable.em (f ≤ j ∧ j ≤ l) with hc | hc
  · have hjw : j < w := by omega
    simp [hc, hjw]
  · rcases Nat.lt_or_ge j w with hjw | hjw
    · simp [hc, hjw]
    · have : blk.testBit j = false :=
        Nat.testBit_lt_two_pow
          (lt_of_lt_of_le hb (Nat.pow_le_pow_right (by omega) hjw))
      simp [hc, Nat.not_lt.mpr hjw, this]

lemma flip_part_testBit (w blk f l j : Nat) (_hb : blk < 2 ^ w) (hfl : f ≤ l)
    (_hlw : l < w) :
    (flip_block_part blk f l).testBit j =
      if f ≤ j ∧ j ≤ l then !(blk.testBit j) else blk.testBit j := by
  show (blk ^^^ bit_mask_fl f l).testBit j = _
  rw [Nat.testBit_xor, testBit_bit_mask_fl f l j (by omega)]
  rcases Decidable.em (f ≤ j ∧ j ≤ l) with hc | hc
  · simp [hc]
  · simp [hc]

lemma set_full_testBit (w blk j : Nat) (_hb : blk < 2 ^ w) (hj : j < w) :
    (set_block_full w blk).testBit j = (fun _ => true) (blk.testBit j) := by
  show (full_mask w).testBit j = _
  rw [testBit_full_mask]
  simp [hj]

lemma reset_full_testBit (w blk j : Nat) (_hb : blk < 2 ^ w) (_hj : j < w) :
    (reset_block_full blk).testBit j = (fun _ => false) (blk.testBit j) :=
  Nat.zero_testBit _

lemma flip_full_testBit (w blk j : Nat) (_hb : blk < 2 ^ w) (hj : j < w) :
    (flip_block_full w blk).testBit j = !(blk.testBit j) := by
  show (blk ^^^ full_mask w).testBit j = _
  rw [Nat.testBit_xor, testBit_full_mask]
  simp [hj]

lemma full_mask_lt (w : Nat) : full_mask w < 2 ^ w := by
  rw [full_mask_eq]
  have : (0 : Nat) < 2 ^ w := Nat.pos_pow_of_pos _ (by omega)
  omega

lemma bit_mask_fl_lt_of (w f l : Nat) (hf : f < w) (hl : l < w) :
    bit_mask_fl f l < 2 ^ w := by
  rw [bit_mask_fl, Nat.one_shiftLeft, Nat.one_shiftLeft]
  apply Nat.xor_lt_two_pow
  · have h1 : (2 : Nat) ^ (l + 1) ≤ 2 ^ w := Nat.pow_le_pow_right (by omega) (by omega)
    have h2 : (0 : Nat) < 2 ^ (l + 1) := Nat.pos_pow_of_pos _ (by omega)
    omega
  · have h1 : (2 : Nat) ^ f ≤ 2 ^ w := Nat.pow_le_pow_right (by omega) (by omega)
    have h2 : (0 : Nat) < 2 ^ f := Nat.pos_pow_of_pos _ (by omega)
    omega

lemma set_part_bound (w blk f l : Nat) (hb : blk < 2 ^ w) (hf : f < w) (hl : l < w) :
    set_block_part w blk f l < 2 ^ w :=
  Nat.or_lt_two_pow hb (bit_mask_fl_lt_of w f l hf hl)

lemma reset_part_bound (w blk f l : Nat) (hb : blk < 2 ^ w) (_hf : f < w)
    (_hl : l < w) : reset_block_part w blk f l < 2 ^ w :=
  Nat.lt_of_le_of_lt Nat.and_le_left hb

lemma flip_part_bound (w blk f l : Nat) (hb : blk < 2 ^ w) (hf : f < w) (hl : l < w) :
    flip_block_part blk f l < 2 ^ w :=
  Nat.xor_lt_two_pow hb (bit_mask_fl_lt_of w f l hf hl)

lemma set_full_bound (w blk : Nat) (_hb : blk < 2 ^ w) : set_block_full w blk < 2 ^ w :=
  full_mask_lt w

lemma reset_full_bound (w blk : Nat) (_hb : blk < 2 ^ w) :
    reset_block_full blk < 2 ^ w :=
  Nat.pos_pow_of_pos _ (by omega)

lemma flip_full_bound (w blk : Nat) (hb : blk < 2 ^ w) : flip_block_full w blk < 2 ^ w :=
  Nat.xor_lt_two_pow hb (full_mask_lt w)

/-! ## Helper lemmas: the public range mutators, bit by bit -/

lemma range_operation_num_bits (w : Nat) (b : DynBitset) (pos len : Nat)
    (pOp : Nat → Nat → Nat → Nat) (fOp : Nat → Nat) :
    (range_operation w b pos len pOp fOp).m_num_bits = b.m_num_bits := by
  rw [range_operation]
  rcases Decidable.em (len = 0) with h | h <;> simp [h]

lemma range_operation_length (w : Nat) (b : DynBitset) (pos len : Nat)
    (pOp : Nat → Nat → Nat → Nat) (fOp : Nat → Nat) :
    (range_operation w b pos len pOp fOp).m_bits.length = b.m_bits.length := by
  rw [range_operation]
  rcases Decidable.em (len = 0) with h | h <;> simp [h, length_buildBlocks]

lemma range_operation_bound (w : Nat) (hw : 0 < w) (b : DynBitset) (pos len : Nat)
    (pOp : Nat → Nat → Nat → Nat) (fOp : Nat → Nat)
    (hbound : ∀ i, b.m_bits.getD i 0 < 2 ^ w)
    (hpb : ∀ blk f l, blk < 2 ^ w → f < w → l < w → pOp blk f l < 2 ^ w)
    (hfb : ∀ blk, blk < 2 ^ w → fOp blk < 2 ^ w) :
    ∀ i, (range_operation w b pos len pOp fOp).m_bits.getD i 0 < 2 ^ w := by
  intro i
  rw [range_operation]
  rcases Decidable.em (len = 0) with h | h
  · rw [if_pos h]; exact hbound i
  · rw [if_neg h]
    show (buildBlocks _ _).getD i 0 < 2 ^ w
    rw [getD_buildBlocks]
    rcases Nat.lt_or_ge i b.m_bits.length with hi | hi
    · rw [if_pos hi]
      exact range_op_block_bound w pos len hw pOp fOp hpb hfb i _ (hbound i)
    · rw [if_neg (Nat.not_lt.mpr hi)]
      exact Nat.pos_pow_of_pos _ (by omega)

/-- `set(pos, len, val)` bit by bit: positions inside the range become
`val`, every other position is untouched. -/
lemma set_range_uget (w : Nat) (hw : 0 < w) (b : DynBitset) (pos len : Nat)
    (val : Bool) (hbound : ∀ i, b.m_bits.getD i 0 < 2 ^ w)
    (hrange : pos + len ≤ w * b.m_bits.length) (i : Nat) :
    m_unchecked_test w (set_range w b pos len val) i =
      if pos ≤ i ∧ i < pos + len then val else m_unchecked_test w b i := by
  cases val with
  | true =>
      rw [set_range, if_pos rfl]
      exact range_op_uget w hw b pos len _ _ (fun _ => true) hbound hrange
        (set_part_testBit w) (set_full_testBit w) i
  | false =>
      rw [set_range, if_neg (by simp)]
      exact range_op_uget w hw b pos len _ _ (fun _ => false) hbound hrange
        (reset_part_testBit w) (reset_full_testBit w) i

/-- `reset(pos, len)` bit by bit. -/
lemma reset_range_uget (w : Nat) (hw : 0 < w) (b : DynBitset) (pos len : Nat)
    (hbound : ∀ i, b.m_bits.getD i 0 < 2 ^ w)
    (hrange : pos + len ≤ w * b.m_bits.length) (i : Nat) :
    m_unchecked_test w (reset_range w b pos len) i =
      if pos ≤ i ∧ i < pos + len then false else m_unchecked_test w b i :=
  range_op_uget w hw b pos len _ _ (fun _ => false) hbound hrange
    (reset_part_testBit w) (reset_full_testBit w) i

/-- `flip(pos, len)` bit by bit. -/
lemma flip_range_uget (w : Nat) (hw : 0 < w) (b : DynBitset) (pos len : Nat)
    (hbound : ∀ i, b.m_bits.getD i 0 < 2 ^ w)
    (hrange : pos + len ≤ w * b.m_bits.length) (i : Nat) :
    m_unchecked_test w (flip_range w b pos len) i =
      if pos ≤ i ∧ i < pos + len then !(m_unchecked_test w b i)
      else m_unchecked_test w b i :=
  range_op_uget w hw b pos len _ _ (fun x => !x) hbound hrange
    (flip_part_testBit w) (flip_full_testBit w) i

/-! ## Helper lemmas: single-bit mutators -/

lemma update_block_getD (bits : List Nat) (i j : Nat) (f : Nat → Nat) :
    (update_block bits i f).getD j 0 =
      if i = j ∧ i < bits.length then f (bits.getD i 0) else bits.getD j 0 := by
  rw [update_block, getD_set_self]

lemma update_block_length (bits : List Nat) (i : Nat) (f : Nat → Nat) :
    (update_block bits i f).length = bits.length := by
  rw [update_block, List.length_set]

lemma set_bit_uget (w : Nat) (hw : 0 < w) (b : DynBitset) (pos : Nat) (val : Bool)
    (hbound : ∀ i, b.m_bits.getD i 0 < 2 ^ w)
    (hpos : pos < w * b.m_bits.length) (i : Nat) :
    m_unchecked_test w (set_bit w b pos val) i =
      if i = pos then val else m_unchecked_test w b i := by
  have hposL : pos / w < b.m_bits.length := by
    rw [Nat.div_lt_iff_lt_mul hw]
    have : b.m_bits.length * w = w * b.m_bits.length := Nat.mul_comm _ _
    omega
  have hdp : w * (pos / w) + pos % w = pos := Nat.div_add_mod pos w
  have hdi : w * (i / w) + i % w = i := Nat.div_add_mod i w
  have hirw : i % w < w := Nat.mod_lt _ hw
  have hmask : bit_mask w pos = 2 ^ (pos % w) := by
    rw [bit_mask, bit_index, Nat.one_shiftLeft]
  cases val with
  | true =>
      rw [set_bit, if_pos rfl, uget_eq_testBit, uget_eq_testBit]
      dsimp only [block_index]
      rw [update_block_getD]
      rcases Decidable.em (pos / w = i / w ∧ pos / w < b.m_bits.length) with hc | hc
      · rw [if_pos hc, hmask, Nat.testBit_or, Nat.testBit_two_pow]
        rcases Decidable.em (i = pos) with he | he
        · subst he
          simp
        · rw [if_neg he]
          have hne : ¬ pos % w = i % w := by
            intro hm
            rw [hc.1] at hdp
            omega
          simp [hne]
          rw [hc.1]
      · rw [if_neg hc]
        have hne : ¬ i = pos := by
          intro he
          subst he
          exact hc ⟨rfl, hposL⟩
        rw [if_neg hne]
  | false =>
      rw [set_bit, if_neg (by simp), uget_eq_testBit, uget_eq_testBit]
      dsimp only [block_index]
      rw [update_block_getD]
      rcases Decidable.em (pos / w = i / w ∧ pos / w < b.m_bits.length) with hc | hc
      · rw [if_pos hc, hmask, Nat.testBit_and, Nat.testBit_xor, testBit_full_mask,
          Nat.testBit_two_pow]
        rcases Decidable.em (i = pos) with he | he
        · subst he
          simp [hirw]
        · rw [if_neg he]
          have hne : ¬ pos % w = i % w := by
            intro hm
            rw [hc.1] at hdp
            omega
          simp [hne, hirw]
          rw [hc.1]
      · rw [if_neg hc]
        have hne : ¬ i = pos := by
          intro he
          subst he
          exact hc ⟨rfl, hposL⟩
        rw [if_neg hne]

lemma flip_bit_uget (w : Nat) (hw : 0 < w) (b : DynBitset) (pos : Nat)
    (hbound : ∀ i, b.m_bits.getD i 0 < 2 ^ w)
    (hpos : pos < w * b.m_bits.length) (i : Nat) :
    m_unchecked_test w (flip_bit w b pos) i =
      if i = pos then !(m_unchecked_test w b i) else m_unchecked_test w b i := by
  have hposL : pos / w < b.m_bits.length := by
    rw [Nat.div_lt_iff_lt_mul hw]
    have : b.m_bits.length * w = w * b.m_bits.length := Nat.mul_comm _ _
    omega
  have hdp : w * (pos / w) + pos % w = pos := Nat.div_add_mod pos w
  have hdi : w * (i / w) + i % w = i := Nat.div_add_mod i w
  have hmask : bit_mask w pos = 2 ^ (pos % w) := by
    rw [bit_mask, bit_index, Nat.one_shiftLeft]
  rw [flip_bit, uget_eq_testBit, uget_eq_testBit]
  dsimp only [block_index]
  rw [update_block_getD]
  rcases Decidable.em (pos / w = i / w ∧ pos / w < b.m_bits.length) with hc | hc
  · rw [if_pos hc, hmask, Nat.testBit_xor, Nat.testBit_two_pow]
    rcases Decidable.em (i = pos) with he | he
    · subst he
      simp
    · rw [if_neg he]
      have hne : ¬ pos % w = i % w := by
        intro hm
        rw [hc.1] at hdp
        omega
      simp [hne]
      rw [hc.1]
  · rw [if_neg hc]
    have hne : ¬ i = pos := by
      intro he
      subst he
      exact hc ⟨rfl, hposL⟩
    rw [if_neg hne]

/-! ## Invariant preservation of the mutators -/

lemma set_range_length (w : Nat) (b : DynBitset) (pos len : Nat) (val : Bool) :
    (set_range w b pos len val).m_bits.length = b.m_bits.length := by
  rw [set_range]
  cases val <;> simp [range_operation_length]

lemma set_range_num_bits (w : Nat) (b : DynBitset) (pos len : Nat) (val : Bool) :
    (set_range w b pos len val).m_num_bits = b.m_num_bits := by
  rw [set_range]
  cases val <;> simp [range_operation_num_bits]

lemma set_range_bound (w : Nat) (hw : 0 < w) (b : DynBitset) (pos len : Nat)
    (val : Bool) (hbound : ∀ i, b.m_bits.getD i 0 < 2 ^ w) :
    ∀ i, (set_range w b pos len val).m_bits.getD i 0 < 2 ^ w := by
  rw [set_range]
  cases val with
  | true =>
      rw [if_pos rfl]
      exact range_operation_bound w hw b pos len _ _ hbound (set_part_bound w)
        (set_full_bound w)
  | false =>
      rw [if_neg (by simp)]
      exact range_operation_bound w hw b pos len _ _ hbound (reset_part_bound w)
        (reset_full_bound w)

lemma flip_range_bound (w : Nat) (hw : 0 < w) (b : DynBitset) (pos len : Nat)
    (hbound : ∀ i, b.m_bits.getD i 0 < 2 ^ w) :
    ∀ i, (flip_range w b pos len).m_bits.getD i 0 < 2 ^ w :=
  range_operation_bound w hw b pos len _ _ hbound (flip_part_bound w) (flip_full_bound w)

/-- `set(pos, len, val)` preserves the class invariant when the range is
within bounds. -/
lemma set_range_check (w : Nat) (hw : 0 < w) (b : DynBitset) (pos len : Nat)
    (val : Bool) (hchk : m_check_invariants w b = true)
    (hpl : pos + len ≤ b.m_num_bits) :
    m_check_invariants w (set_range w b pos len val) = true := by
  obtain ⟨hlen, hbound, _⟩ := (check_iff w b).mp hchk
  have hrange : pos + len ≤ w * b.m_bits.length := by
    have := size_le_mul_calc w b.m_num_bits hw
    rw [hlen]
    omega
  apply check_of_parts w _ hw
  · rw [set_range_length, set_range_num_bits, hlen]
  · exact set_range_bound w hw b pos len val hbound
  · intro p hp
    rw [set_range_num_bits] at hp
    rw [set_range_uget w hw b pos len val hbound hrange p, if_neg (by omega)]
    exact check_unused w b hw hchk p hp

/-- `flip(pos, len)` preserves the class invariant when the range is
within bounds. -/
lemma flip_range_check (w : Nat) (hw : 0 < w) (b : DynBitset) (pos len : Nat)
    (hchk : m_check_invariants w b = true) (hpl : pos + len ≤ b.m_num_bits) :
    m_check_invariants w (flip_range w b pos len) = true := by
  obtain ⟨hlen, hbound, _⟩ := (check_iff w b).mp hchk
  have hrange : pos + len ≤ w * b.m_bits.length := by
    have := size_le_mul_calc w b.m_num_bits hw
    rw [hlen]
    omega
  apply check_of_parts w _ hw
  · rw [flip_range, range_operation_length, range_operation_num_bits, hlen]
  · exact flip_range_bound w hw b pos len hbound
  · intro p hp
    rw [flip_range, range_operation_num_bits] at hp
    rw [flip_range_uget w hw b pos len hbound hrange p, if_neg (by omega)]
    exact check_unused w b hw hchk p hp

lemma set_bit_num_bits (w : Nat) (b : DynBitset) (pos : Nat) (val : Bool) :
    (set_bit w b pos val).m_num_bits = b.m_num_bits := by
  rw [set_bit]
  cases val <;> simp

lemma set_bit_length (w : Nat) (b : DynBitset) (pos : Nat) (val : Bool) :
    (set_bit w b pos val).m_bits.length = b.m_bits.length := by
  rw [set_bit]
  cases val <;> simp [update_block_length]

/-- Single-bit `set`/`reset` preserves the class invariant when
`pos < size()`. -/
lemma set_bit_check (w : Nat) (hw : 0 < w) (b : DynBitset) (pos : Nat) (val : Bool)
    (hchk : m_check_invariants w b = true) (hpos : pos < b.m_num_bits) :
    m_check_invariants w (set_bit w b pos val) = true := by
  obtain ⟨hlen, hbound, _⟩ := (check_iff w b).mp hchk
  have hrange : pos < w * b.m_bits.length := by
    have := size_le_mul_calc w b.m_num_bits hw
    rw [hlen]
    omega
  apply check_of_parts w _ hw
  · rw [set_bit_length, set_bit_num_bits, hlen]
  · intro i
    rw [set_bit]
    cases val with
    | true =>
        rw [if_pos rfl]
        dsimp only
        rw [update_block_getD]
        rcases Decidable.em (block_index w pos = i ∧ block_index w pos < b.m_bits.length)
          with hc | hc
        · rw [if_pos hc]
          apply Nat.or_lt_two_pow (hbound _)
          rw [bit_mask, bit_index, Nat.one_shiftLeft]
          exact Nat.pow_lt_pow_right (by omega) (Nat.mod_lt _ hw)
        · rw [if_neg hc]; exact hbound i
    | false =>
        rw [if_neg (by simp)]
        dsimp only
        rw [update_block_getD]
        rcases Decidable.em (block_index w pos = i ∧ block_index w pos < b.m_bits.length)
          with hc | hc
        · rw [if_pos hc]
          exact Nat.lt_of_le_of_lt Nat.and_le_left (hbound _)
        · rw [if_neg hc]; exact hbound i
  · intro p hp
    rw [set_bit_num_bits] at hp
    rw [set_bit_uget w hw b pos val hbound hrange p, if_neg (by omega)]
    exact check_unused w b hw hchk p hp

lemma flip_bit_check (w : Nat) (hw : 0 < w) (b : DynBitset) (pos : Nat)
    (hchk : m_check_invariants w b = true) (hpos : pos < b.m_num_bits) :
    m_check_invariants w (flip_bit w b pos) = true := by
  obtain ⟨hlen, hbound, _⟩ := (check_iff w b).mp hchk
  have hrange : pos < w * b.m_bits.length := by
    have := size_le_mul_calc w b.m_num_bits hw
    rw [hlen]
    omega
  apply check_of_parts w _ hw
  · rw [flip_bit]
    dsimp only
    rw [update_block_length, hlen]
  · intro i
    rw [flip_bit]
    dsimp only
    rw [update_block_getD]
    rcases Decidable.em (block_index w pos = i ∧ block_index w pos < b.m_bits.length)
      with hc | hc
    · rw [if_pos hc]
      apply Nat.xor_lt_two_pow (hbound _)
      rw [bit_mask, bit_index, Nat.one_shiftLeft]
      exact Nat.pow_lt_pow_right (by omega) (Nat.mod_lt _ hw)
    · rw [if_neg hc]; exact hbound i
  · intro p hp
    have hnb : (flip_bit w b pos).m_num_bits = b.m_num_bits := rfl
    rw [hnb] at hp
    rw [flip_bit_uget w hw b pos hbound hrange p, if_neg (by omega)]
    exact check_unused w b hw hchk p hp

lemma getD_map_blocks (f : Nat → Nat) (l : List Nat) (i : Nat) :
    (l.map f).getD i 0 = if i < l.length then f (l.getD i 0) else 0 := by
  rw [List.getD_eq_getElem?_getD, List.getElem?_map]
  rcases Nat.lt_or_ge i l.length with hi | hi
  · rw [List.getElem?_eq_getElem hi, if_pos hi, getD_eq_getElem hi]
    rfl
  · rw [List.getElem?_eq_none hi, if_neg (Nat.not_lt.mpr hi)]
    rfl

/-- `reset()` preserves the class invariant. -/
lemma reset_all_check (w : Nat) (hw : 0 < w) (b : DynBitset)
    (hlen : b.m_bits.length = calc_num_blocks w b.m_num_bits) :
    m_check_invariants w (reset_all b) = true := by
  apply check_of_parts w _ hw
  · show (b.m_bits.map _).length = _
    rw [List.length_map, hlen]
    rfl
  · intro i
    show (b.m_bits.map _).getD i 0 < 2 ^ w
    rw [getD_map_blocks]
    have : (0:Nat) < 2 ^ w := Nat.pos_pow_of_pos _ (by omega)
    rcases Decidable.em (i < b.m_bits.length) with h | h <;> simp [h, this]
  · intro p _
    rw [uget_eq_testBit]
    show ((b.m_bits.map _).getD (p / w) 0).testBit (p % w) = false
    rw [getD_map_blocks]
    rcases Decidable.em (p / w < b.m_bits.length) with h | h <;>
      simp [h, Nat.zero_testBit]

/-- `flip()` (toggle all) preserves the class invariant. -/
lemma flip_all_check (w : Nat) (hw : 0 < w) (b : DynBitset)
    (hchk : m_check_invariants w b = true) :
    m_check_invariants w (flip_all w b) = true := by
  obtain ⟨hlen, hbound, _⟩ := (check_iff w b).mp hchk
  apply zub_check w _ hw
  · show (b.m_bits.map _).length = _
    rw [List.length_map, hlen]
  · intro i
    show (b.m_bits.map _).getD i 0 < 2 ^ w
    rw [getD_map_blocks]
    rcases Decidable.em (i < b.m_bits.length) with h | h
    · rw [if_pos h]
      exact Nat.xor_lt_two_pow (hbound i) (full_mask_lt w)
    · rw [if_neg h]
      exact Nat.pos_pow_of_pos _ (by omega)

/-- `set()` (set all) preserves the class invariant. -/
lemma set_all_check (w : Nat) (hw : 0 < w) (b : DynBitset)
    (hlen : b.m_bits.length = calc_num_blocks w b.m_num_bits) :
    m_check_invariants w (set_all w b) = true := by
  apply zub_check w _ hw
  · show (b.m_bits.map _).length = _
    rw [List.length_map, hlen]
  · intro i
    show (b.m_bits.map _).getD i 0 < 2 ^ w
    rw [getD_map_blocks]
    rcases Decidable.em (i < b.m_bits.length) with h | h
    · rw [if_pos h]
      exact full_mask_lt w
    · rw [if_neg h]
      exact Nat.pos_pow_of_pos _ (by omega)

/-! ## Theorems for the claims on range operations -/

/-- Claim C4: range frame law.  For every bitset `a` satisfying the class
invariant and every `(p, l)` with `p + l <= a.size()`, executing
`a.set(p, l, true)` followed by `a.reset(p, l)` leaves every bit outside
`[p, p + l)` equal to its value before the `set`, and every bit inside
`[p, p + l)` cleared. -/
theorem claim_C4_set_reset_frame (w : Nat) (b : DynBitset) (p l : Nat) (hw : 0 < w)
    (hchk : m_check_invariants w b = true) (hpl : p + l ≤ b.m_num_bits) :
    (∀ i, i < p ∨ p + l ≤ i →
      m_unchecked_test w (reset_range w (set_range w b p l true) p l) i =
        m_unchecked_test w b i) ∧
    (∀ i, p ≤ i → i < p + l →
      m_unchecked_test w (reset_range w (set_range w b p l true) p l) i = false) := by
  obtain ⟨hlen, hbound, _⟩ := (check_iff w b).mp hchk
  have hrange : p + l ≤ w * b.m_bits.length := by
    have := size_le_mul_calc w b.m_num_bits hw
    rw [hlen]
    omega
  have hbound1 : ∀ i, (set_range w b p l true).m_bits.getD i 0 < 2 ^ w :=
    set_range_bound w hw b p l true hbound
  have hrange1 : p + l ≤ w * (set_range w b p l true).m_bits.length := by
    rw [set_range_length]
    exact hrange
  constructor
  · intro i hi
    rw [reset_range_uget w hw _ p l hbound1 hrange1 i, if_neg (by omega),
      set_range_uget w hw b p l true hbound hrange i, if_neg (by omega)]
  · intro i h1 h2
    rw [reset_range_uget w hw _ p l hbound1 hrange1 i, if_pos ⟨h1, h2⟩]

/-- Witness for C4 on the 8-bit vector `0b10110101` with `(p, l) = (2, 3)`:
bit 1 is restored and bit 3 is cleared. -/
theorem claim_C4_set_reset_frame_witness :
    ((0 < 8 ∧ m_check_invariants 8 ⟨[181], 8⟩ = true ∧ 2 + 3 ≤ (8:Nat)) ∧
     m_unchecked_test 8 (reset_range 8 (set_range 8 ⟨[181], 8⟩ 2 3 true) 2 3) 1 =
       m_unchecked_test 8 ⟨[181], 8⟩ 1) ∧
    m_unchecked_test 8 (reset_range 8 (set_range 8 ⟨[181], 8⟩ 2 3 true) 2 3) 3 = false :=
  ⟨⟨⟨by decide, by decide, by decide⟩,
    (claim_C4_set_reset_frame 8 ⟨[181], 8⟩ 2 3 (by decide) (by decide)
      (by decide)).1 1 (by decide)⟩,
   (claim_C4_set_reset_frame 8 ⟨[181], 8⟩ 2 3 (by decide) (by decide)
      (by decide)).2 3 (by decide) (by decide)⟩

/-! ## Invariant for the constructors -/

/-- Construction from a block range satisfies the class invariant (all of
the size `num_blocks * bits_per_block` is used, so there are no unused
bits). -/
lemma init_from_block_range_check (w : Nat) (hw : 0 < w) (bs : List Nat)
    (hbound : ∀ x ∈ bs, x < 2 ^ w) :
    m_check_invariants w (init_from_block_range w bs) = true := by
  apply check_of_parts w _ hw
  · show bs.length = calc_num_blocks w (bs.length * w)
    rw [calc_block_aligned w _ hw]
  · exact mem_iff_getD.mp hbound
  · intro pos hpos
    rw [uget_eq_testBit]
    show (bs.getD (pos / w) 0).testBit (pos % w) = false
    have hge : bs.length ≤ pos / w := by
      rw [Nat.le_div_iff_mul_le hw]
      exact hpos
    rw [getD_len_le hge]
    exact Nat.zero_testBit _

/-- Construction from an `unsigned long` satisfies the class invariant. -/
lemma init_from_unsigned_long_check (w uw num_bits value : Nat) (hw : 0 < w) :
    m_check_invariants w (init_from_unsigned_long w uw num_bits value) = true := by
  apply check_of_parts w _ hw
  · show (buildBlocks _ _).length = _
    rw [length_buildBlocks]
    rfl
  · intro i
    show (buildBlocks _ _).getD i 0 < 2 ^ w
    rw [getD_buildBlocks]
    rcases Decidable.em (i < calc_num_blocks w num_bits) with h | h
    · rw [if_pos h]
      exact Nat.lt_of_le_of_lt Nat.and_le_right (full_mask_lt w)
    · rw [if_neg h]
      exact Nat.pos_pow_of_pos _ (by omega)
  · intro pos hpos
    rw [uget_eq_testBit]
    show ((buildBlocks _ _).getD (pos / w) 0).testBit (pos % w) = false
    rw [getD_buildBlocks]
    rcases Decidable.em (pos / w < calc_num_blocks w num_bits) with h | h
    · rw [if_pos h, Nat.testBit_and, testBit_full_mask, Nat.testBit_shiftRight]
      have hrw : pos / w * w + pos % w = pos := by
        have h1 : w * (pos / w) + pos % w = pos := Nat.div_add_mod pos w
        have h2 : pos / w * w = w * (pos / w) := Nat.mul_comm _ _
        omega
      rw [hrw]
      have hv2 : ulong_init_value uw num_bits value < 2 ^ num_bits := by
        rw [ulong_init_value]
        rcases Decidable.em (num_bits < uw) with hnu | hnu
        · rw [if_pos hnu]
          exact Nat.mod_lt _ (Nat.pos_pow_of_pos _ (by omega))
        · rw [if_neg hnu]
          apply Nat.lt_of_lt_of_le (Nat.mod_lt _ (Nat.pos_pow_of_pos _ (by omega)))
          exact Nat.pow_le_pow_right (by omega) (by omega)
      have hpos2 : num_bits ≤ pos := hpos
      have : ulong_init_value uw num_bits value < 2 ^ pos :=
        Nat.lt_of_lt_of_le hv2 (Nat.pow_le_pow_right (by omega) (by omega))
      rw [Nat.testBit_lt_two_pow this]
      simp
    · rw [if_neg h]
      exact Nat.zero_testBit _

/-- Construction from a string of '0'/'1' characters satisfies the class
invariant. -/
lemma init_from_string_check (w : Nat) (hw : 0 < w) (s : List Char) :
    m_check_invariants w (init_from_string w s) = true := by
  apply check_of_parts w _ hw
  · show (buildBlocks _ _).length = _
    rw [length_buildBlocks]
    rfl
  · intro i
    show (buildBlocks _ _).getD i 0 < 2 ^ w
    rw [getD_buildBlocks]
    rcases Decidable.em (i < calc_num_blocks w s.length) with h | h
    · rw [if_pos h]
      exact natOfBits_lt _ _
    · rw [if_neg h]
      exact Nat.pos_pow_of_pos _ (by omega)
  · intro pos hpos
    rw [uget_eq_testBit]
    show ((buildBlocks _ _).getD (pos / w) 0).testBit (pos % w) = false
    rw [getD_buildBlocks]
    rcases Decidable.em (pos / w < calc_num_blocks w s.length) with h | h
    · rw [if_pos h, natOfBits_testBit]
      have hrw : pos / w * w + pos % w = pos := by
        have h1 : w * (pos / w) + pos % w = pos := Nat.div_add_mod pos w
        have h2 : pos / w * w = w * (pos / w) := Nat.mul_comm _ _
        omega
      rw [hrw]
      have hpos2 : s.length ≤ pos := hpos
      simp [Nat.not_lt.mpr hpos2]
    · rw [if_neg h]
      exact Nat.zero_testBit _

/-! ## Theorems for claim C2 (string constructor versus integer
constructor)

In C++, `dynamic_bitset(13ul)` selects the constructor
`dynamic_bitset(size_type num_bits, unsigned long value = 0, ...)` with
`num_bits = 13` and `value = 0` (confirmed by the constructor's own
postconditions at dynamic_bitset.hpp lines 278-283 and by the tests, which
use `dynamic_bitset<Block> lhs(3)` for a 3-bit zero vector).  So
`dynamic_bitset(13ul)` denotes a 13-bit all-zero bitset, not the 4-bit
bitset of numeric value 13; the doc-comment example at lines 296-298
repeats this slip.  The block width is 8 (`Block = unsigned char`, one of
the block types the unit tests instantiate); `ulong_width` is 64. -/

/-- Counterexample to C2 as stated: `dynamic_bitset(std::string("1101"))`
is NOT equal to `dynamic_bitset(13ul)` — the latter has `size() == 13`
(and value zero), not `size() == 4`. -/
theorem claim_C2_counterexample :
    init_from_string 8 ['1', '1', '0', '1'] ≠ init_from_unsigned_long 8 64 13 0 ∧
    (init_from_unsigned_long 8 64 13 0).m_num_bits = 13 := by
  constructor
  · intro h
    have h4 : (init_from_string 8 ['1', '1', '0', '1']).m_num_bits = 4 := rfl
    rw [h] at h4
    exact absurd h4 (by decide)
  · rfl

/-- Claim C2 (amended): the bitset constructed from the string `"1101"`
equals `dynamic_bitset(4, 13ul)` — the constructor taking the bit count 4
and the value 13 — with `size() == 4` and bits `[1, 0, 1, 1]` from least
significant (position 0) to most significant (position 3). -/
theorem claim_C2_string_equals_ulong :
    init_from_string 8 ['1', '1', '0', '1'] = init_from_unsigned_long 8 64 4 13 ∧
    (init_from_string 8 ['1', '1', '0', '1']).m_num_bits = 4 ∧
    m_unchecked_test 8 (init_from_string 8 ['1', '1', '0', '1']) 0 = true ∧
    m_unchecked_test 8 (init_from_string 8 ['1', '1', '0', '1']) 1 = false ∧
    m_unchecked_test 8 (init_from_string 8 ['1', '1', '0', '1']) 2 = true ∧
    m_unchecked_test 8 (init_from_string 8 ['1', '1', '0', '1']) 3 = true := by
  refine ⟨dynBitset_ext ?_ rfl, rfl, by decide, by decide, by decide, by decide⟩
  decide

/-! ## Helper lemmas: shifts -/

lemma buildBlocks_getD_self (l : List Nat) :
    buildBlocks l.length (fun i => l.getD i 0) = l := by
  apply list_eq_of_getD
  · rw [length_buildBlocks]
  · intro k
    rw [getD_buildBlocks]
    rcases Nat.lt_or_ge k l.length with h | h
    · rw [if_pos h]
    · rw [if_neg (Nat.not_lt.mpr h), getD_len_le h]

/-- `m_zero_unused_bits` is the identity on a bitset already satisfying
the invariant. -/
lemma zub_id (w : Nat) (b : DynBitset) (hchk : m_check_invariants w b = true) :
    m_zero_unused_bits w b = b := by
  obtain ⟨_, _, hlast⟩ := (check_iff w b).mp hchk
  rw [m_zero_unused_bits]
  rcases Decidable.em (count_extra_bits w b = 0) with h0 | h0
  · rw [if_pos h0]
  · rw [if_neg h0]
    have hlast2 : b.m_bits.getD (b.m_bits.length - 1) 0 < 2 ^ count_extra_bits w b := by
      tauto
    have hand : (b.m_bits.getD (b.m_bits.length - 1) 0) &&&
        ((1 <<< count_extra_bits w b) - 1) = b.m_bits.getD (b.m_bits.length - 1) 0 := by
      rw [Nat.one_shiftLeft, and_two_pow_sub_one, Nat.mod_eq_of_lt hlast2]
    rw [hand, set_getD_self]

/-- Per-bit semantics of `operator<<=`: for `pos < size()`, the bit at
`pos` after the shift is the old bit at `pos - n`, or zero when
`pos < n`. -/
lemma left_shift_uget (w : Nat) (hw : 0 < w) (b : DynBitset) (n : Nat)
    (hchk : m_check_invariants w b = true) :
    ∀ pos, pos < b.m_num_bits →
      m_unchecked_test w (left_shift w b n) pos =
        if n ≤ pos then m_unchecked_test w b (pos - n) else false := by
  obtain ⟨hlen, hbound, _⟩ := (check_iff w b).mp hchk
  intro pos hpos
  rcases le_or_lt b.m_num_bits n with hn | hn
  · -- shift amount at least the size: everything is zero and `pos < n`
    rw [left_shift, if_pos hn, if_neg (by omega), uget_eq_testBit]
    show ((b.m_bits.map _).getD (pos / w) 0).testBit (pos % w) = false
    rw [getD_map_blocks]
    rcases Decidable.em (pos / w < b.m_bits.length) with h | h <;>
      simp [h, Nat.zero_testBit]
  · rw [left_shift, if_neg (by omega)]
    have hinlen : (buildBlocks b.m_bits.length
        (left_shift_block w (n / w) (n % w) b.m_bits)).length =
        calc_num_blocks w b.m_num_bits := by
      rw [length_buildBlocks, hlen]
    rw [zub_uget w ⟨buildBlocks b.m_bits.length
        (left_shift_block w (n / w) (n % w) b.m_bits), b.m_num_bits⟩
        hw hinlen pos hpos, uget_eq_testBit]
    show ((buildBlocks _ _).getD (pos / w) 0).testBit (pos % w) = _
    rw [getD_buildBlocks]
    have hposL : pos / w < b.m_bits.length := by
      have h1 : pos < w * b.m_bits.length := by
        have := size_le_mul_calc w b.m_num_bits hw
        rw [hlen]
        omega
      rw [Nat.div_lt_iff_lt_mul hw]
      have h2 : b.m_bits.length * w = w * b.m_bits.length := Nat.mul_comm _ _
      omega
    rw [if_pos hposL, left_shift_block]
    have hdp : w * (pos / w) + pos % w = pos := Nat.div_add_mod pos w
    have hdn : w * (n / w) + n % w = n := Nat.div_add_mod n w
    have hjw : pos % w < w := Nat.mod_lt _ hw
    have hRw : n % w < w := Nat.mod_lt _ hw
    rcases Nat.lt_or_ge (pos / w) (n / w) with hqD | hqD
    · -- the destination block is entirely below the shift: zero
      rw [if_pos hqD]
      have h1 : pos < w * (n / w) := lt_mul_of_div_lt hw hqD
      rw [if_neg (by omega)]
      exact Nat.zero_testBit _
    · rw [if_neg (Nat.not_lt.mpr hqD)]
      have hms : w * (pos / w - n / w) + w * (n / w) = w * (pos / w) := by
        rw [← Nat.mul_add]
        congr 1
        omega
      rcases Decidable.em (n % w = 0) with hR | hR
      · -- block-aligned shift: a whole-block copy
        rw [if_pos hR]
        have hle : n ≤ pos := by omega
        rw [if_pos hle]
        have hsub : pos - n = w * (pos / w - n / w) + pos % w := by omega
        obtain ⟨hd, hm⟩ := div_mod_unique hw hsub hjw
        rw [uget_eq_testBit, hd, hm]
      · rw [if_neg hR]
        rw [Nat.testBit_or, Nat.testBit_and, Nat.testBit_shiftLeft,
          testBit_full_mask]
        rcases le_or_lt (n % w) (pos % w) with hjR | hjR
        · -- the bit comes from the same source block, shifted up
          have hle : n ≤ pos := by omega
          rw [if_pos hle]
          have hsub : pos - n = w * (pos / w - n / w) + (pos % w - n % w) := by
            omega
          obtain ⟨hd, hm⟩ := div_mod_unique hw hsub (by omega)
          rw [uget_eq_testBit, hd, hm]
          have hsecond :
              (if pos / w - n / w = 0 then 0
               else b.m_bits.getD (pos / w - n / w - 1) 0 >>> (w - n % w)).testBit
                (pos % w) = false := by
            rcases Decidable.em (pos / w - n / w = 0) with hz | hz
            · rw [if_pos hz]
              exact Nat.zero_testBit _
            · rw [if_neg hz, Nat.testBit_shiftRight]
              apply Nat.testBit_lt_two_pow
              apply lt_of_lt_of_le (hbound _)
              exact Nat.pow_le_pow_right (by omega) (by omega)
          rw [hsecond]
          simp [hjR, hjw]
        · -- the bit spills over from the previous source block
          have hfirst : (decide (pos % w ≥ n % w) &&
              (b.m_bits.getD (pos / w - n / w) 0).testBit (pos % w - n % w)) = false := by
            simp
            omega
          rcases Decidable.em (pos / w - n / w = 0) with hz | hz
          · -- in the lowest surviving block, below the shift: zero fill
            rw [if_pos hz]
            have hqD2 : pos / w = n / w := by omega
            rw [hqD2] at hdp
            rw [if_neg (by omega)]
            have hge : ¬ pos % w ≥ n % w := by omega
            simp [Nat.testBit_or, Nat.zero_testBit, hjw, hge]
          · rw [if_neg hz]
            have hq1 : 1 ≤ pos / w - n / w := by omega
            have hms2 : w * (pos / w - n / w - 1) + w = w * (pos / w - n / w) := by
              have h := Nat.mul_add w (pos / w - n / w - 1) 1
              rw [Nat.mul_one] at h
              rw [← h]
              congr 1
              omega
            have hle : n ≤ pos := by omega
            rw [if_pos hle]
            have hsub : pos - n =
                w * (pos / w - n / w - 1) + (w - n % w + pos % w) := by omega
            obtain ⟨hd, hm⟩ := div_mod_unique hw hsub (by omega)
            rw [uget_eq_testBit, hd, hm, Nat.testBit_shiftRight, hfirst]
            simp

lemma reset_all_uget (w : Nat) (b : DynBitset) (pos : Nat) :
    m_unchecked_test w (reset_all b) pos = false := by
  rw [uget_eq_testBit]
  show ((b.m_bits.map _).getD (pos / w) 0).testBit (pos % w) = false
  rw [getD_map_blocks]
  rcases Decidable.em (pos / w < b.m_bits.length) with h | h <;>
    simp [h, Nat.zero_testBit]

lemma left_shift_num_bits (w : Nat) (b : DynBitset) (n : Nat) :
    (left_shift w b n).m_num_bits = b.m_num_bits := by
  rw [left_shift]
  rcases Decidable.em (b.m_num_bits ≤ n) with h | h
  · rw [if_pos h]; rfl
  · rw [if_neg h, zub_num_bits]

lemma left_shift_block_bound (w divb r : Nat) (old : List Nat)
    (hbound : ∀ k, old.getD k 0 < 2 ^ w) (hw : 0 < w) (i : Nat) :
    left_shift_block w divb r old i < 2 ^ w := by
  rw [left_shift_block]
  split_ifs
  · exact Nat.pos_pow_of_pos _ (by omega)
  · exact hbound _
  · apply Nat.or_lt_two_pow
    · exact Nat.lt_of_le_of_lt Nat.and_le_right (full_mask_lt w)
    · exact Nat.pos_pow_of_pos _ (by omega)
  · apply Nat.or_lt_two_pow
    · exact Nat.lt_of_le_of_lt Nat.and_le_right (full_mask_lt w)
    · rw [Nat.shiftRight_eq_div_pow]
      exact Nat.lt_of_le_of_lt (Nat.div_le_self _ _) (hbound _)

/-- `operator<<=` preserves the class invariant. -/
lemma left_shift_check (w : Nat) (hw : 0 < w) (b : DynBitset) (n : Nat)
    (hchk : m_check_invariants w b = true) :
    m_check_invariants w (left_shift w b n) = true := by
  obtain ⟨hlen, hbound, _⟩ := (check_iff w b).mp hchk
  rw [left_shift]
  rcases Decidable.em (b.m_num_bits ≤ n) with h | h
  · rw [if_pos h]
    exact reset_all_check w hw b hlen
  · rw [if_neg h]
    apply zub_check w _ hw
    · show (buildBlocks _ _).length = _
      rw [length_buildBlocks, hlen]
    · intro i
      show (buildBlocks _ _).getD i 0 < 2 ^ w
      rw [getD_buildBlocks]
      rcases Decidable.em (i < b.m_bits.length) with hi | hi
      · rw [if_pos hi]
        exact left_shift_block_bound w _ _ b.m_bits hbound hw i
      · rw [if_neg hi]
        exact Nat.pos_pow_of_pos _ (by omega)

/-- `operator<<=` by 0 is the identity (under the invariant). -/
lemma left_shift_zero (w : Nat) (hw : 0 < w) (b : DynBitset)
    (hchk : m_check_invariants w b = true) : left_shift w b 0 = b := by
  obtain ⟨hlen, _, _⟩ := (check_iff w b).mp hchk
  rcases Decidable.em (b.m_num_bits ≤ 0) with h | h
  · rw [left_shift, if_pos h]
    have hnum : b.m_num_bits = 0 := by omega
    have hlen0 : b.m_bits.length = 0 := by
      rw [hlen, hnum, calc_aligned_eq w 0 (Nat.zero_mod w), Nat.zero_div]
    have hbits : b.m_bits = [] := List.length_eq_zero.mp hlen0
    apply dynBitset_ext
    · show b.m_bits.map _ = b.m_bits
      rw [hbits]
      rfl
    · rfl
  · rw [left_shift, if_neg h]
    have hfun : left_shift_block w (0 / w) (0 % w) b.m_bits =
        fun i => b.m_bits.getD i 0 := by
      funext i
      rw [Nat.zero_div, Nat.zero_mod, left_shift_block]
      simp
    have hinner : (⟨buildBlocks b.m_bits.length
        (left_shift_block w (0 / w) (0 % w) b.m_bits), b.m_num_bits⟩ : DynBitset) = b := by
      apply dynBitset_ext
      · show buildBlocks _ _ = b.m_bits
        rw [hfun, buildBlocks_getD_self]
      · rfl
    rw [hinner, zub_id w b hchk]

lemma right_shift_num_bits (w : Nat) (b : DynBitset) (n : Nat) :
    (right_shift w b n).m_num_bits = b.m_num_bits := by
  rw [right_shift]
  rcases Decidable.em (b.m_num_bits ≤ n) with h | h
  · rw [if_pos h]; rfl
  · rw [if_neg h]

lemma right_shift_block_bound (w divb r last : Nat) (old : List Nat)
    (hbound : ∀ k, old.getD k 0 < 2 ^ w) (hw : 0 < w) (i : Nat) :
    right_shift_block w divb r last old i < 2 ^ w := by
  rw [right_shift_block]
  split_ifs
  · exact Nat.pos_pow_of_pos _ (by omega)
  · exact hbound _
  · apply Nat.or_lt_two_pow
    · rw [Nat.shiftRight_eq_div_pow]
      exact Nat.lt_of_le_of_lt (Nat.div_le_self _ _) (hbound _)
    · exact Nat.pos_pow_of_pos _ (by omega)
  · apply Nat.or_lt_two_pow
    · rw [Nat.shiftRight_eq_div_pow]
      exact Nat.lt_of_le_of_lt (Nat.div_le_self _ _) (hbound _)
    · exact Nat.lt_of_le_of_lt Nat.and_le_right (full_mask_lt w)

/-- The possible situations of a position at or beyond the bit count. -/
lemma unused_cases (w : Nat) (hw : 0 < w) (b : DynBitset)
    (hlen : b.m_bits.length = calc_num_blocks w b.m_num_bits)
    (pos : Nat) (hpos : b.m_num_bits ≤ pos) :
    b.m_bits.length ≤ pos / w ∨
      (b.m_num_bits % w ≠ 0 ∧ pos / w = b.m_bits.length - 1 ∧
       b.m_num_bits % w ≤ pos % w ∧ pos / w = b.m_num_bits / w) := by
  have hdivle : b.m_num_bits / w ≤ pos / w := Nat.div_le_div_right hpos
  rcases Nat.lt_or_ge (pos / w) b.m_bits.length with hblk | hblk
  · right
    have hmod : b.m_num_bits % w ≠ 0 := by
      intro h0
      rw [hlen, calc_aligned_eq w b.m_num_bits h0] at hblk
      exact absurd hblk (Nat.not_lt.mpr hdivle)
    have hcalc := calc_last_block w b.m_num_bits hmod
    have hdiveq : pos / w = b.m_num_bits / w := by
      rw [hlen, hcalc] at hblk
      exact Nat.le_antisymm (Nat.lt_succ_iff.mp hblk) hdivle
    refine ⟨hmod, ?_, ?_, hdiveq⟩
    · rw [hlen, hcalc, Nat.add_sub_cancel, hdiveq]
    · have he1 : w * (pos / w) + pos % w = pos := Nat.div_add_mod pos w
      have he2 : w * (b.m_num_bits / w) + b.m_num_bits % w = b.m_num_bits :=
        Nat.div_add_mod b.m_num_bits w
      rw [hdiveq] at he1
      omega
  · exact Or.inl hblk

/-- `operator>>=` preserves the class invariant (no explicit re-zeroing is
needed: the surviving top block only loses high bits). -/
lemma right_shift_check (w : Nat) (hw : 0 < w) (b : DynBitset) (n : Nat)
    (hchk : m_check_invariants w b = true) :
    m_check_invariants w (right_shift w b n) = true := by
  obtain ⟨hlen, hbound, hlast⟩ := (check_iff w b).mp hchk
  rw [right_shift]
  rcases Decidable.em (b.m_num_bits ≤ n) with h | h
  · rw [if_pos h]
    exact reset_all_check w hw b hlen
  · rw [if_neg h]
    apply check_of_parts w _ hw
    · show (buildBlocks _ _).length = _
      rw [length_buildBlocks, hlen]
    · intro i
      show (buildBlocks _ _).getD i 0 < 2 ^ w
      rw [getD_buildBlocks]
      rcases Decidable.em (i < b.m_bits.length) with hi | hi
      · rw [if_pos hi]
        exact right_shift_block_bound w _ _ _ b.m_bits hbound hw i
      · rw [if_neg hi]
        exact Nat.pos_pow_of_pos _ (by omega)
    · intro pos hpos
      have hpos2 : b.m_num_bits ≤ pos := hpos
      rw [uget_eq_testBit]
      show ((buildBlocks _ _).getD (pos / w) 0).testBit (pos % w) = false
      rw [getD_buildBlocks]
      rcases unused_cases w hw b hlen pos hpos2 with hout | ⟨hmod, hidx, hmw, hdiveq⟩
      · rw [if_neg (by omega)]
        exact Nat.zero_testBit _
      · have hL : 0 < b.m_bits.length := by
          rw [hlen, calc_last_block w b.m_num_bits hmod]
          omega
        rw [if_pos (by omega), right_shift_block]
        have hlast2 : b.m_bits.getD (b.m_bits.length - 1) 0 <
            2 ^ (b.m_num_bits % w) := by
          rcases hlast with hc | hc
          · exact absurd hc hmod
          · exact hc
        rcases Decidable.em (b.m_bits.length - 1 < pos / w + n / w) with hD | hD
        · rw [if_pos hD]
          exact Nat.zero_testBit _
        · rw [if_neg hD]
          have hD0 : n / w = 0 := by
            have hD2 : pos / w + n / w ≤ b.m_bits.length - 1 := Nat.not_lt.mp hD
            rw [hidx] at hD2
            have h3 : b.m_bits.length - 1 + n / w ≤ b.m_bits.length - 1 + 0 := by
              rw [Nat.add_zero]
              exact hD2
            exact Nat.le_zero.mp (Nat.le_of_add_le_add_left h3)
          have hidx2 : pos / w + n / w = b.m_bits.length - 1 := by omega
          rcases Decidable.em (n % w = 0) with hR | hR
          · rw [if_pos hR, hidx2]
            apply Nat.testBit_lt_two_pow
            exact Nat.lt_of_lt_of_le hlast2
              (Nat.pow_le_pow_right (by omega) (by omega))
          · rw [if_neg hR, if_pos hidx2, Nat.testBit_or, Nat.testBit_shiftRight,
              Nat.zero_testBit, Bool.or_false, hidx2]
            apply Nat.testBit_lt_two_pow
            exact Nat.lt_of_lt_of_le hlast2
              (Nat.pow_le_pow_right (by omega) (by omega))

/-- Claim C5: left-shift semantics.  For every bitset `v` satisfying the
class invariant and every amount `n`: `size()` is unchanged; for
`pos < size()` the bit at `pos` after `v <<= n` is the old bit at
`pos - n`, or zero when `pos < n`; shifting by `n >= size()` zeroes the
entire vector; shifting by 0 changes nothing. -/
theorem claim_C5_left_shift (w : Nat) (b : DynBitset) (hw : 0 < w)
    (hchk : m_check_invariants w b = true) :
    ∀ n, (left_shift w b n).m_num_bits = b.m_num_bits ∧
      (∀ pos, pos < b.m_num_bits →
        m_unchecked_test w (left_shift w b n) pos =
          if n ≤ pos then m_unchecked_test w b (pos - n) else false) ∧
      (b.m_num_bits ≤ n → ∀ pos, m_unchecked_test w (left_shift w b n) pos = false) ∧
      left_shift w b 0 = b := by
  intro n
  refine ⟨left_shift_num_bits w b n, left_shift_uget w hw b n hchk, ?_,
    left_shift_zero w hw b hchk⟩
  intro hn pos
  rw [left_shift, if_pos hn]
  exact reset_all_uget w b pos

/-- Witness for C5 on the 4-bit vector `0b1011` shifted by 1: the size
stays 4, bit 2 becomes the old bit 1, the zero shift is the identity, and
a shift by 5 clears bit 0. -/
theorem claim_C5_left_shift_witness :
    ((0 < 8 ∧ m_check_invariants 8 ⟨[11], 4⟩ = true) ∧
     (left_shift 8 ⟨[11], 4⟩ 1).m_num_bits = 4 ∧
     m_unchecked_test 8 (left_shift 8 ⟨[11], 4⟩ 1) 2 =
       (if 1 ≤ 2 then m_unchecked_test 8 ⟨[11], 4⟩ (2 - 1) else false) ∧
     left_shift 8 ⟨[11], 4⟩ 0 = ⟨[11], 4⟩) ∧
    m_unchecked_test 8 (left_shift 8 ⟨[11], 4⟩ 5) 0 = false :=
  ⟨⟨⟨by decide, by decide⟩,
    (claim_C5_left_shift 8 ⟨[11], 4⟩ (by decide) (by decide) 1).1,
    (claim_C5_left_shift 8 ⟨[11], 4⟩ (by decide) (by decide) 1).2.1 2 (by decide),
    (claim_C5_left_shift 8 ⟨[11], 4⟩ (by decide) (by decide) 0).2.2.2⟩,
   (claim_C5_left_shift 8 ⟨[11], 4⟩ (by decide) (by decide) 5).2.2.1 (by decide) 0⟩

/-! ## Helper lemmas: the bit scanner -/

lemma naive_find_in_some (p : Nat → Bool) (fuel : Nat) : ∀ s r,
    (naive_find_in p s fuel = some r ↔
      (s ≤ r ∧ r < s + fuel ∧ p r = true ∧ ∀ j, s ≤ j → j < r → p j = false)) := by
  induction fuel with
  | zero =>
      intro s r
      simp [naive_find_in]
      omega
  | succ m ih =>
      intro s r
      rw [naive_find_in]
      rcases hps : p s with hv | hv
      · rw [if_neg (by simp [hps]), ih (s + 1) r]
        constructor
        · rintro ⟨h1, h2, h3, h4⟩
          refine ⟨by omega, by omega, h3, ?_⟩
          intro j hj1 hj2
          rcases Decidable.em (j = s) with he | he
          · rw [he]; exact hps
          · exact h4 j (by omega) hj2
        · rintro ⟨h1, h2, h3, h4⟩
          have hrs : r ≠ s := by
            intro he
            rw [he, hps] at h3
            exact Bool.false_ne_true h3
          exact ⟨by omega, by omega, h3, fun j hj1 hj2 => h4 j (by omega) hj2⟩
      · rw [if_pos rfl]
        constructor
        · intro h
          have : s = r := Option.some.inj h
          subst this
          exact ⟨le_refl s, by omega, hps, fun j hj1 hj2 => absurd hj2 (by omega)⟩
        · rintro ⟨h1, _, _, h4⟩
          congr 1
          by_contra hc
          have := h4 s (le_refl s) (by omega)
          rw [hps] at this
          exact (by decide : (true : Bool) ≠ false) this

lemma naive_find_in_none (p : Nat → Bool) (fuel : Nat) : ∀ s,
    (naive_find_in p s fuel = none ↔ ∀ j, s ≤ j → j < s + fuel → p j = false) := by
  induction fuel with
  | zero =>
      intro s
      simp [naive_find_in]
      omega
  | succ m ih =>
      intro s
      rw [naive_find_in]
      rcases hps : p s with hv | hv
      · rw [if_neg (by simp [hps]), ih (s + 1)]
        constructor
        · intro h j hj1 hj2
          rcases Decidable.em (j = s) with he | he
          · rw [he]; exact hps
          · exact h j (by omega) (by omega)
        · intro h j hj1 hj2
          exact h j (by omega) (by omega)
      · rw [if_pos rfl]
        constructor
        · intro h; exact absurd h (by simp)
        · intro h
          have := h s (le_refl s) (by omega)
          rw [hps] at this
          exact absurd this (by decide : (true : Bool) ≠ false)

/-- A search result that returns the least position satisfying `p` (and
`none` exactly when there is none at or beyond `s`) coincides with the
fuelled naive linear scan, provided `p` fails beyond the fuel window. -/
lemma find_eq_naive (p : Nat → Bool) (o : Option Nat) (s fuel : Nat)
    (hbeyond : ∀ j, s + fuel ≤ j → p j = false)
    (hsome : ∀ r, o = some r → s ≤ r ∧ p r = true ∧
      ∀ j, s ≤ j → j < r → p j = false)
    (hnone : o = none → ∀ j, s ≤ j → p j = false) :
    o = naive_find_in p s fuel := by
  cases o with
  | none =>
      symm
      rw [naive_find_in_none]
      intro j hj _
      exact hnone rfl j hj
  | some r =>
      obtain ⟨h1, h2, h3⟩ := hsome r rfl
      symm
      rw [naive_find_in_some]
      refine ⟨h1, ?_, h2, h3⟩
      by_contra hc
      push_neg at hc
      rw [hbeyond r hc] at h2
      exact Bool.false_ne_true h2

lemma scan_blocks_some (j : Nat) : ∀ l : List Nat,
    (scan_blocks l = some j ↔
      (j < l.length ∧ l.getD j 0 ≠ 0 ∧ ∀ t, t < j → l.getD t 0 = 0)) := by
  induction j with
  | zero =>
      intro l
      cases l with
      | nil => simp [scan_blocks]
      | cons x xs =>
          rw [scan_blocks, m_not_empty]
          rcases Decidable.em (x = 0) with hx | hx
          · rw [if_neg (by simp [hx])]
            simp [hx]
          · rw [if_pos (by simpa using hx)]
            simp [hx]
  | succ m ih =>
      intro l
      cases l with
      | nil => simp [scan_blocks]
      | cons x xs =>
          rw [scan_blocks, m_not_empty]
          rcases Decidable.em (x = 0) with hx | hx
          · rw [if_neg (by simp [hx])]
            constructor
            · intro h
              obtain ⟨j2, hj2, hj2e⟩ := Option.map_eq_some'.mp h
              have hj2m : j2 = m := by omega
              subst hj2m
              obtain ⟨ha, hb, hc⟩ := (ih xs).mp hj2
              refine ⟨by simpa using Nat.succ_lt_succ ha, by simpa using hb, ?_⟩
              intro t ht
              cases t with
              | zero => simpa using hx
              | succ t2 => simpa using hc t2 (by omega)
            · rintro ⟨ha, hb, hc⟩
              have hscan : scan_blocks xs = some m := by
                rw [ih xs]
                refine ⟨by simpa using ha, by simpa using hb, ?_⟩
                intro t ht
                have := hc (t + 1) (by omega)
                simpa using this
              rw [hscan]
              rfl
          · rw [if_pos (by simpa using hx)]
            constructor
            · intro h
              exact absurd (Option.some.inj h) (by omega)
            · rintro ⟨_, _, hc⟩
              have := hc 0 (by omega)
              simp at this
              exact absurd this hx

lemma scan_blocks_none : ∀ l : List Nat,
    (scan_blocks l = none ↔ ∀ t, t < l.length → l.getD t 0 = 0) := by
  intro l
  induction l with
  | nil => simp [scan_blocks]
  | cons x xs ih =>
      rw [scan_blocks, m_not_empty]
      rcases Decidable.em (x = 0) with hx | hx
      · rw [if_neg (by simp [hx])]
        simp only [Option.map_eq_none']
        rw [ih]
        constructor
        · intro h t ht
          cases t with
          | zero => simpa using hx
          | succ t2 => simpa using h t2 (by simpa using ht)
        · intro h t ht
          have := h (t + 1) (by simpa using Nat.succ_lt_succ ht)
          simpa using this
      · rw [if_pos (by simpa using hx)]
        constructor
        · intro h; exact absurd h (by simp)
        · intro h
          have := h 0 (by simp)
          simp at this
          exact absurd this hx

lemma getD_drop (l : List Nat) (s t : Nat) : (l.drop s).getD t 0 = l.getD (s + t) 0 := by
  rw [List.getD_eq_getElem?_getD, List.getD_eq_getElem?_getD, List.getElem?_drop]

/-- The bits of the block masked below the threshold `p % w`. -/
lemma masked_testBit (w B p : Nat) (hw : 0 < w) (hB : B < 2 ^ w) (j : Nat) :
    (B &&& (full_mask w ^^^ ((1 <<< (p % w)) - 1))).testBit j =
      (B.testBit j && decide (p % w ≤ j)) := by
  rw [Nat.testBit_and, Nat.testBit_xor, testBit_full_mask, Nat.one_shiftLeft,
    Nat.testBit_two_pow_sub_one]
  have hpw : p % w < w := Nat.mod_lt _ hw
  rcases Nat.lt_or_ge j w with hj | hj
  · rcases Nat.lt_or_ge j (p % w) with hjp | hjp
    · simp [hj, hjp]
    · simp [hj, Nat.not_lt.mpr hjp, hjp]
  · have hBj : B.testBit j = false :=
      Nat.testBit_lt_two_pow (lt_of_lt_of_le hB (Nat.pow_le_pow_right (by omega) hj))
    simp [hBj]

/-- Packaged facts about `lowest_bit` on a nonzero block. -/
lemma lowest_bit_block (x w : Nat) (hw : 0 < w) (hx : x ≠ 0) (hxw : x < 2 ^ w) :
    x.testBit (lowest_bit x) = true ∧ (∀ j, j < lowest_bit x → x.testBit j = false) ∧
      lowest_bit x < w := by
  have h1 : 1 ≤ x := by omega
  obtain ⟨ha, hb⟩ := ctz_spec x h1
  rw [lowest_bit_eq_ctz x h1]
  exact ⟨ha, hb, by rw [← lowest_bit_eq_ctz x h1]; exact lowest_bit_lt x w h1 hxw⟩

/-- Characterization of the whole-block scan `m_do_find_from`: when it
returns a position, that position is the least set bit at or beyond block
`s`; when it returns `npos`, there is no set bit there. -/
lemma m_do_find_from_spec (w : Nat) (hw : 0 < w) (b : DynBitset) (s : Nat)
    (hbound : ∀ i, b.m_bits.getD i 0 < 2 ^ w) :
    (∀ r, m_do_find_from w b s = some r →
       s * w ≤ r ∧ m_unchecked_test w b r = true ∧
       ∀ j, s * w ≤ j → j < r → m_unchecked_test w b j = false) ∧
    (m_do_find_from w b s = none → ∀ j, s * w ≤ j → m_unchecked_test w b j = false) := by
  constructor
  · intro r hr
    rw [m_do_find_from] at hr
    rcases hscan : scan_blocks (b.m_bits.drop s) with _ | jj
    · rw [hscan] at hr
      exact absurd hr (by simp)
    · rw [hscan] at hr
      have hr2 : r = (s + jj) * w + lowest_bit (b.m_bits.getD (s + jj) 0) :=
        (Option.some.inj hr).symm
      obtain ⟨hjlen, hBne, hzeros⟩ := (scan_blocks_some jj _).mp hscan
      rw [getD_drop] at hBne
      obtain ⟨hbit, hmin, hltw⟩ :=
        lowest_bit_block (b.m_bits.getD (s + jj) 0) w hw hBne (hbound _)
      have hcomm : (s + jj) * w = w * (s + jj) := Nat.mul_comm _ _
      have hr3 : r = w * (s + jj) + lowest_bit (b.m_bits.getD (s + jj) 0) := by
        omega
      obtain ⟨hrd, hrm⟩ := div_mod_unique hw hr3 hltw
      refine ⟨?_, ?_, ?_⟩
      · have h1 : w * s ≤ w * (s + jj) := Nat.mul_le_mul_left w (by omega)
        have h2 : s * w = w * s := Nat.mul_comm _ _
        omega
      · rw [uget_eq_testBit, hrd, hrm]
        exact hbit
      · intro j hj1 hj2
        rw [uget_eq_testBit]
        have hdj : w * (j / w) + j % w = j := Nat.div_add_mod j w
        have hjmw : j % w < w := Nat.mod_lt _ hw
        have hq1 : s ≤ j / w := by
          rw [Nat.le_div_iff_mul_le hw]
          have h2 : s * w = w * s := Nat.mul_comm _ _
          omega
        have hq2 : j / w ≤ s + jj := by
          have h3 : j / w < s + jj + 1 := by
            rw [Nat.div_lt_iff_lt_mul hw]
            have h4 : (s + jj + 1) * w = w * (s + jj) + w := by ring
            omega
          omega
        rcases Decidable.em (j / w = s + jj) with he | he
        · rw [he]
          apply hmin
          rw [he] at hdj
          omega
        · have hql : j / w < s + jj := by omega
          have := hzeros (j / w - s) (by omega)
          rw [getD_drop] at this
          have hidx : s + (j / w - s) = j / w := by omega
          rw [hidx] at this
          rw [this]
          exact Nat.zero_testBit _
  · intro hr j hj
    rw [m_do_find_from] at hr
    rcases hscan : scan_blocks (b.m_bits.drop s) with _ | jj
    · have hall := (scan_blocks_none _).mp hscan
      rw [uget_eq_testBit]
      have hq1 : s ≤ j / w := by
        rw [Nat.le_div_iff_mul_le hw]
        have h2 : s * w = w * s := Nat.mul_comm _ _
        have hdj : w * (j / w) + j % w = j := Nat.div_add_mod j w
        omega
      rcases Nat.lt_or_ge (j / w) b.m_bits.length with hlt | hge
      · have := hall (j / w - s) (by rw [List.length_drop]; omega)
        rw [getD_drop] at this
        have hidx : s + (j / w - s) = j / w := by omega
        rw [hidx] at this
        rw [this]
        exact Nat.zero_testBit _
      · rw [getD_len_le hge]
        exact Nat.zero_testBit _
    · rw [hscan] at hr
      exact absurd hr (by simp)

/-- A zero masked block means no set bits from `p1` to the end of its
block. -/
lemma masked_zero_range (w : Nat) (hw : 0 < w) (b : DynBitset) (p1 : Nat)
    (hM : (b.m_bits.getD (p1 / w) 0) &&&
      (full_mask w ^^^ ((1 <<< (p1 % w)) - 1)) = 0) :
    ∀ j, p1 ≤ j → j < (p1 / w + 1) * w → m_unchecked_test w b j = false := by
  intro j hj1 hj2
  have hbd : b.m_bits.getD (p1 / w) 0 < 2 ^ w ∨ True := Or.inr trivial
  have hdp : w * (p1 / w) + p1 % w = p1 := Nat.div_add_mod p1 w
  have hdj : w * (j / w) + j % w = j := Nat.div_add_mod j w
  have hjmw : j % w < w := Nat.mod_lt _ hw
  have hq : j / w = p1 / w := by
    have h1 : p1 / w ≤ j / w := Nat.div_le_div_right hj1
    have h2 : j / w < p1 / w + 1 := by
      rw [Nat.div_lt_iff_lt_mul hw]
      have h3 : (p1 / w + 1) * w = w * (p1 / w) + w := by ring
      omega
    omega
  rw [uget_eq_testBit, hq]
  have hmge : p1 % w ≤ j % w := by
    rw [hq] at hdj
    omega
  have htb := congrArg (fun x => x.testBit (j % w)) hM
  simp only [Nat.zero_testBit] at htb
  rw [Nat.testBit_and, Nat.testBit_xor, testBit_full_mask, Nat.one_shiftLeft,
    Nat.testBit_two_pow_sub_one] at htb
  have hd1 : decide (j % w < w) = true := by simp [hjmw]
  have hd2 : decide (j % w < p1 % w) = false := by simp; omega
  rw [hd1, hd2] at htb
  simpa using htb

/-- `find_first()` agrees with the naive per-bit linear scan. -/
lemma find_first_eq (w : Nat) (hw : 0 < w) (b : DynBitset)
    (hchk : m_check_invariants w b = true) :
    find_first w b = naive_find_first w b := by
  obtain ⟨hlen, hbound, _⟩ := (check_iff w b).mp hchk
  obtain ⟨hsome, hnone⟩ := m_do_find_from_spec w hw b 0 hbound
  rw [find_first, naive_find_first]
  apply find_eq_naive
  · intro j hj
    exact check_unused w b hw hchk j (by omega)
  · intro r hr
    obtain ⟨h1, h2, h3⟩ := hsome r hr
    rw [Nat.zero_mul] at h1 h3
    exact ⟨h1, h2, h3⟩
  · intro h j hj
    exact hnone h j (by omega)

/-- `find_next(pos)` agrees with the naive per-bit linear scan strictly
beyond `pos`. -/
lemma find_next_eq (w : Nat) (hw : 0 < w) (b : DynBitset)
    (hchk : m_check_invariants w b = true) (pos : Nat) :
    find_next w b pos = naive_find_next w b pos := by
  obtain ⟨hlen, hbound, _⟩ := (check_iff w b).mp hchk
  rw [find_next, naive_find_next]
  rcases Decidable.em (b.m_num_bits = 0 ∨ b.m_num_bits - 1 ≤ pos) with hg | hg
  · rw [if_pos hg]
    have hfuel : b.m_num_bits - (pos + 1) = 0 := by omega
    rw [hfuel]
    rfl
  · rw [if_neg hg]
    push_neg at hg
    have hp1 : pos + 1 < b.m_num_bits := by omega
    have hdp : w * ((pos + 1) / w) + (pos + 1) % w = pos + 1 :=
      Nat.div_add_mod _ w
    have hpw : (pos + 1) % w < w := Nat.mod_lt _ hw
    have hBb := hbound ((pos + 1) / w)
    have hbeyond : ∀ j, (pos + 1) + (b.m_num_bits - (pos + 1)) ≤ j →
        m_unchecked_test w b j = false := by
      intro j hj
      exact check_unused w b hw hchk j (by omega)
    simp only [block_index, bit_index]
    rcases Decidable.em ((b.m_bits.getD ((pos + 1) / w) 0) &&&
        (full_mask w ^^^ ((1 <<< ((pos + 1) % w)) - 1)) = 0) with hM | hM
    · rw [if_neg (by simpa using hM)]
      obtain ⟨hsome, hnone⟩ := m_do_find_from_spec w hw b ((pos + 1) / w + 1) hbound
      have hblockend : ∀ j, pos + 1 ≤ j → j < ((pos + 1) / w + 1) * w →
          m_unchecked_test w b j = false :=
        masked_zero_range w hw b (pos + 1) hM
      apply find_eq_naive
      · exact hbeyond
      · intro r hr
        obtain ⟨h1, h2, h3⟩ := hsome r hr
        have hcomm : ((pos + 1) / w + 1) * w = w * ((pos + 1) / w) + w := by ring
        refine ⟨by omega, h2, ?_⟩
        intro j hj1 hj2
        rcases Nat.lt_or_ge j (((pos + 1) / w + 1) * w) with hc | hc
        · exact hblockend j hj1 hc
        · exact h3 j hc hj2
      · intro h j hj
        rcases Nat.lt_or_ge j (((pos + 1) / w + 1) * w) with hc | hc
        · exact hblockend j hj hc
        · exact hnone h j hc
    · rw [if_pos (by simpa using hM)]
      have hMbd : (b.m_bits.getD ((pos + 1) / w) 0) &&&
          (full_mask w ^^^ ((1 <<< ((pos + 1) % w)) - 1)) < 2 ^ w :=
        Nat.lt_of_le_of_lt Nat.and_le_left hBb
      obtain ⟨hbit, hmin, hltw⟩ := lowest_bit_block _ w hw hM hMbd
      set M := (b.m_bits.getD ((pos + 1) / w) 0) &&&
          (full_mask w ^^^ ((1 <<< ((pos + 1) % w)) - 1)) with hMdef
      have hMbits : ∀ j, M.testBit j =
          ((b.m_bits.getD ((pos + 1) / w) 0).testBit j &&
            decide ((pos + 1) % w ≤ j)) := by
        intro j
        rw [hMdef]
        exact masked_testBit w _ (pos + 1) hw hBb j
      have hlb_ge : (pos + 1) % w ≤ lowest_bit M := by
        have h := hbit
        rw [hMbits] at h
        have := (Bool.and_eq_true _ _).mp h
        simpa using this.2
      apply find_eq_naive
      · exact hbeyond
      · intro r hr
        have hr2 : r = (pos + 1) / w * w + lowest_bit M := (Option.some.inj hr).symm
        have hcomm : (pos + 1) / w * w = w * ((pos + 1) / w) := Nat.mul_comm _ _
        have hr3 : r = w * ((pos + 1) / w) + lowest_bit M := by omega
        obtain ⟨hrd, hrm⟩ := div_mod_unique hw hr3 hltw
        refine ⟨by omega, ?_, ?_⟩
        · rw [uget_eq_testBit, hrd, hrm]
          have h := hbit
          rw [hMbits] at h
          exact ((Bool.and_eq_true _ _).mp h).1
        · intro j hj1 hj2
          rw [uget_eq_testBit]
          have hdj : w * (j / w) + j % w = j := Nat.div_add_mod j w
          have hjmw : j % w < w := Nat.mod_lt _ hw
          have hq : j / w = (pos + 1) / w := by
            have h1 : (pos + 1) / w ≤ j / w := Nat.div_le_div_right hj1
            have h2 : j / w < (pos + 1) / w + 1 := by
              rw [Nat.div_lt_iff_lt_mul hw]
              have h3 : ((pos + 1) / w + 1) * w = w * ((pos + 1) / w) + w := by ring
              omega
            omega
          rw [hq]
          have hjm_lt : j % w < lowest_bit M := by
            rw [hq] at hdj
            omega
          have hjm_ge : (pos + 1) % w ≤ j % w := by
            rw [hq] at hdj
            omega
          have h := hmin (j % w) hjm_lt
          rw [hMbits] at h
          have hd : decide ((pos + 1) % w ≤ j % w) = true := by simp [hjm_ge]
          rw [hd, Bool.and_true] at h
          exact h
      · intro h
        exact absurd h (by simp)

/-- Claim C3: the block-skipping scanners agree with the naive per-bit
linear scan: `find_first()` returns the lowest set index (`npos`/`none` if
none) and `find_next(pos)` the lowest set index strictly beyond `pos`,
including `npos` on an all-zero vector and on an empty vector. -/
theorem claim_C3_find_agrees_naive (w : Nat) (b : DynBitset) (hw : 0 < w)
    (hchk : m_check_invariants w b = true) :
    (find_first w b = naive_find_first w b ∧
     ∀ pos, find_next w b pos = naive_find_next w b pos) ∧
    ((∀ i, i < b.m_num_bits → m_unchecked_test w b i = false) →
      find_first w b = none ∧ ∀ pos, find_next w b pos = none) ∧
    (b.m_num_bits = 0 → find_first w b = none ∧ ∀ pos, find_next w b pos = none) := by
  have hff := find_first_eq w hw b hchk
  have hfn := find_next_eq w hw b hchk
  have hzero : (∀ i, i < b.m_num_bits → m_unchecked_test w b i = false) →
      find_first w b = none ∧ ∀ pos, find_next w b pos = none := by
    intro hall
    constructor
    · rw [hff, naive_find_first, naive_find_in_none]
      intro j _ hj2
      exact hall j (by omega)
    · intro pos
      rw [hfn pos, naive_find_next, naive_find_in_none]
      intro j _ hj2
      exact hall j (by omega)
  refine ⟨⟨hff, hfn⟩, hzero, ?_⟩
  intro hempty
  apply hzero
  intro i hi
  omega

/-- Witness for C3 on `0b100` (3 bits, bit 2 set), on the all-zero 3-bit
vector, and on the empty vector. -/
theorem claim_C3_find_agrees_naive_witness :
    ((0 < 8 ∧ m_check_invariants 8 ⟨[4], 3⟩ = true) ∧
     find_first 8 ⟨[4], 3⟩ = naive_find_first 8 ⟨[4], 3⟩ ∧
     find_next 8 ⟨[4], 3⟩ 0 = naive_find_next 8 ⟨[4], 3⟩ 0) ∧
    find_first 8 ⟨[0], 3⟩ = none ∧
    find_first 8 (⟨[], 0⟩ : DynBitset) = none :=
  ⟨⟨⟨by decide, by decide⟩,
    (claim_C3_find_agrees_naive 8 ⟨[4], 3⟩ (by decide) (by decide)).1.1,
    (claim_C3_find_agrees_naive 8 ⟨[4], 3⟩ (by decide) (by decide)).1.2 0⟩,
   ((claim_C3_find_agrees_naive 8 ⟨[0], 3⟩ (by decide) (by decide)).2.1
      (by decide)).1,
   ((claim_C3_find_agrees_naive 8 ⟨[], 0⟩ (by decide) (by decide)).2.2 rfl).1⟩

/-- Claim C6: `to_ulong()` signals the overflow condition
(`std::overflow_error`, rendered `none`) if and only if some bit at
position `>= ulong_width` is set; when it does not signal, it returns the
value whose bit `i` equals the bitset's bit `i` for every `i` (the model
is purely functional, so the bitset itself is untouched). -/
theorem claim_C6_to_ulong (w uw : Nat) (b : DynBitset) (hw : 0 < w) (huw : 0 < uw)
    (hchk : m_check_invariants w b = true) :
    (to_ulong w uw b = none ↔ ∃ i, uw ≤ i ∧ m_unchecked_test w b i = true) ∧
    (∀ v, to_ulong w uw b = some v → ∀ i, v.testBit i = m_unchecked_test w b i) := by
  have hunused := check_unused w b hw hchk
  rw [to_ulong]
  rcases Decidable.em (b.m_num_bits = 0) with h0 | h0
  · rw [if_pos h0]
    constructor
    · constructor
      · intro h
        exact absurd h (by simp)
      · rintro ⟨i, _, hi⟩
        rw [hunused i (by omega)] at hi
        exact absurd hi (by simp)
    · intro v hv i
      have : v = 0 := (Option.some.inj hv).symm
      rw [this, Nat.zero_testBit, hunused i (by omega)]
  · rw [if_neg h0]
    have hrw : uw - 1 + 1 = uw := by omega
    have hfn := find_next_eq w hw b hchk (uw - 1)
    rw [naive_find_next, hrw] at hfn
    rcases hv : find_next w b (uw - 1) with _ | r
    · rw [if_neg (by simp [hv])]
      have hnone := (naive_find_in_none _ _ _).mp (hv ▸ hfn.symm)
      have hnoset : ∀ j, uw ≤ j → m_unchecked_test w b j = false := by
        intro j hj
        rcases Nat.lt_or_ge j b.m_num_bits with hc | hc
        · exact hnone j hj (by omega)
        · exact hunused j hc
      constructor
      · constructor
        · intro h
          exact absurd h (by simp)
        · rintro ⟨i, hi1, hi2⟩
          rw [hnoset i hi1] at hi2
          exact absurd hi2 (by simp)
      · intro v hv2 i
        have hveq : v = natOfBits (m_unchecked_test w b) (min b.m_num_bits uw) :=
          (Option.some.inj hv2).symm
        rw [hveq, natOfBits_testBit]
        rcases Decidable.em (i < min b.m_num_bits uw) with hc | hc
        · simp [hc]
        · have hfalse : m_unchecked_test w b i = false := by
            rcases Nat.lt_or_ge i b.m_num_bits with hcc | hcc
            · exact hnoset i (by omega)
            · exact hunused i hcc
          simp [hc, hfalse]
    · rw [if_pos (by simp [hv])]
      obtain ⟨h1, _, h3, _⟩ := (naive_find_in_some _ _ _ _).mp (hv ▸ hfn.symm)
      constructor
      · constructor
        · intro _
          exact ⟨r, h1, h3⟩
        · intro _
          rfl
      · intro v hv2
        exact absurd hv2 (by simp)

/-- Witness for C6: a 70-bit vector with bit 65 set overflows for a 64-bit
`unsigned long`; the 8-bit vector `0b1011` converts to 11 with matching
bits. -/
theorem claim_C6_to_ulong_witness :
    ((0 < 8 ∧ 0 < 64 ∧ m_check_invariants 8 ⟨[0, 0, 0, 0, 0, 0, 0, 0, 2], 70⟩ = true) ∧
     (to_ulong 8 64 ⟨[0, 0, 0, 0, 0, 0, 0, 0, 2], 70⟩ = none ↔
       ∃ i, 64 ≤ i ∧ m_unchecked_test 8 ⟨[0, 0, 0, 0, 0, 0, 0, 0, 2], 70⟩ i = true)) ∧
    (m_check_invariants 8 ⟨[11], 4⟩ = true ∧
     ∀ v, to_ulong 8 64 ⟨[11], 4⟩ = some v →
       ∀ i, v.testBit i = m_unchecked_test 8 ⟨[11], 4⟩ i) :=
  ⟨⟨⟨by decide, by decide, by decide⟩,
    (claim_C6_to_ulong 8 64 ⟨[0, 0, 0, 0, 0, 0, 0, 0, 2], 70⟩ (by decide) (by decide)
      (by decide)).1⟩,
   ⟨by decide,
    (claim_C6_to_ulong 8 64 ⟨[11], 4⟩ (by decide) (by decide) (by decide)).2⟩⟩

/-! ### Comparison: relating the block order, the bit order and the
string order through numeric values -/

lemma bigEndianVal_append (w : Nat) (l1 l2 : List Nat) :
    bigEndianVal w (l1 ++ l2) =
      bigEndianVal w l1 * 2 ^ (w * l2.length) + bigEndianVal w l2 := by
  induction l1 with
  | nil => simp [bigEndianVal]
  | cons x xs ih =>
      simp only [List.cons_append, bigEndianVal, List.append_eq, ih,
        List.length_append, Nat.mul_add, Nat.pow_add]
      ring

lemma bigEndianVal_reverse (w : Nat) (l : List Nat) :
    bigEndianVal w l.reverse = blocksVal w l := by
  induction l with
  | nil => rfl
  | cons x xs ih =>
      rw [List.reverse_cons, bigEndianVal_append, ih, blocksVal]
      simp [bigEndianVal]
      ring

lemma bigEndianVal_lt (w : Nat) (l : List Nat) (hall : ∀ x ∈ l, x < 2 ^ w) :
    bigEndianVal w l < 2 ^ (w * l.length) := by
  induction l with
  | nil => simp [bigEndianVal]
  | cons x xs ih =>
      have hx : x < 2 ^ w := hall x (List.mem_cons_self _ _)
      have hxs : bigEndianVal w xs < 2 ^ (w * xs.length) :=
        ih (fun y hy => hall y (List.mem_cons_of_mem x hy))
      rw [bigEndianVal, List.length_cons]
      calc x * 2 ^ (w * xs.length) + bigEndianVal w xs
          < x * 2 ^ (w * xs.length) + 2 ^ (w * xs.length) :=
            Nat.add_lt_add_left hxs _
        _ = (x + 1) * 2 ^ (w * xs.length) := by ring
        _ ≤ 2 ^ w * 2 ^ (w * xs.length) := Nat.mul_le_mul_right _ hx
        _ = 2 ^ (w * (xs.length + 1)) := by
            rw [show w * (xs.length + 1) = w + w * xs.length from by ring, Nat.pow_add]

lemma lexLtNat_iff_val (w : Nat) : ∀ (xs ys : List Nat), xs.length = ys.length →
    (∀ x ∈ xs, x < 2 ^ w) → (∀ y ∈ ys, y < 2 ^ w) →
    (lexLtNat xs ys = true ↔ bigEndianVal w xs < bigEndianVal w ys)
  | [], [], _, _, _ => by simp [lexLtNat, bigEndianVal]
  | [], _ :: _, h, _, _ => by simp at h
  | _ :: _, [], h, _, _ => by simp at h
  | x :: xs, y :: ys, hlen, hx, hy => by
      have hlen2 : xs.length = ys.length := by simpa using hlen
      have ihr := lexLtNat_iff_val w xs ys hlen2
        (fun a ha => hx a (List.mem_cons_of_mem _ ha))
        (fun a ha => hy a (List.mem_cons_of_mem _ ha))
      have hxb : bigEndianVal w xs < 2 ^ (w * xs.length) :=
        bigEndianVal_lt w xs (fun a ha => hx a (List.mem_cons_of_mem _ ha))
      have hyb : bigEndianVal w ys < 2 ^ (w * ys.length) :=
        bigEndianVal_lt w ys (fun a ha => hy a (List.mem_cons_of_mem _ ha))
      rw [← hlen2] at hyb
      rw [lexLtNat, bigEndianVal, bigEndianVal, ← hlen2]
      constructor
      · intro h
        simp only [Bool.or_eq_true, decide_eq_true_eq, Bool.and_eq_true,
          beq_iff_eq] at h
        rcases h with hlt | ⟨heq, hrec⟩
        · calc x * 2 ^ (w * xs.length) + bigEndianVal w xs
              < x * 2 ^ (w * xs.length) + 2 ^ (w * xs.length) :=
                Nat.add_lt_add_left hxb _
            _ = (x + 1) * 2 ^ (w * xs.length) := by ring
            _ ≤ y * 2 ^ (w * xs.length) := Nat.mul_le_mul_right _ hlt
            _ ≤ y * 2 ^ (w * xs.length) + bigEndianVal w ys := Nat.le_add_right _ _
        · subst heq
          exact Nat.add_lt_add_left (ihr.mp hrec) _
      · intro h
        rcases Nat.lt_trichotomy x y with hlt | heq | hgt
        · simp [lexLtNat, hlt]
        · subst heq
          have hrec : bigEndianVal w xs < bigEndianVal w ys :=
            Nat.lt_of_add_lt_add_left h
          simp [lexLtNat, ihr.mpr hrec]
        · exfalso
          have hgt2 : y * 2 ^ (w * xs.length) + bigEndianVal w ys
              < x * 2 ^ (w * xs.length) + bigEndianVal w xs := by
            calc y * 2 ^ (w * xs.length) + bigEndianVal w ys
                < y * 2 ^ (w * xs.length) + 2 ^ (w * xs.length) :=
                  Nat.add_lt_add_left hyb _
              _ = (y + 1) * 2 ^ (w * xs.length) := by ring
              _ ≤ x * 2 ^ (w * xs.length) := Nat.mul_le_mul_right _ hgt
              _ ≤ x * 2 ^ (w * xs.length) + bigEndianVal w xs := Nat.le_add_right _ _
          exact Nat.lt_asymm h hgt2

lemma natOfBits_false {f : Nat → Bool} {k : Nat} (h : ∀ j, j < k → f j = false) :
    natOfBits f k = 0 := by
  apply Nat.eq_of_testBit_eq
  intro i
  rw [natOfBits_testBit, Nat.zero_testBit]
  rcases Nat.lt_or_ge i k with hi | hi
  · simp [h i hi]
  · simp [Nat.not_lt.mpr hi]

lemma blocksVal_eq_natOfBits (w : Nat) (hw : 0 < w) :
    ∀ l : List Nat, (∀ x ∈ l, x < 2 ^ w) →
    blocksVal w l =
      natOfBits (fun pos => (l.getD (pos / w) 0).testBit (pos % w)) (l.length * w)
  | [], _ => by simp [blocksVal, natOfBits]
  | x :: xs, hall => by
      have hx : x < 2 ^ w := hall x (List.mem_cons_self _ _)
      have ih := blocksVal_eq_natOfBits w hw xs
        (fun a ha => hall a (List.mem_cons_of_mem _ ha))
      rw [blocksVal, List.length_cons,
        show (xs.length + 1) * w = w + xs.length * w from by ring,
        natOfBits_split]
      congr 1
      · have hcongr : natOfBits
            (fun pos => ((x :: xs).getD (pos / w) 0).testBit (pos % w)) w
            = natOfBits x.testBit w := by
          apply natOfBits_congr
          intro j hj
          rw [Nat.div_eq_of_lt hj, Nat.mod_eq_of_lt hj]
          rfl
        rw [hcongr, natOfBits_eq_self hx]
      · congr 1
        rw [ih]
        apply natOfBits_congr
        intro j _
        have h1 : (j + w) / w = j / w + 1 := Nat.add_div_right _ hw
        have h2 : (j + w) % w = j % w := Nat.add_mod_right _ _
        rw [h1, h2, List.getD_cons_succ]

lemma blocksVal_eq_dbsVal (w : Nat) (b : DynBitset) (hw : 0 < w)
    (hchk : m_check_invariants w b = true) :
    blocksVal w b.m_bits = dbsVal w b := by
  obtain ⟨hlen, hbound, _⟩ := (check_iff w b).mp hchk
  have hall : ∀ x ∈ b.m_bits, x < 2 ^ w := mem_iff_getD.mpr hbound
  rw [blocksVal_eq_natOfBits w hw b.m_bits hall, dbsVal]
  have hmul : b.m_bits.length * w = w * calc_num_blocks w b.m_num_bits := by
    rw [hlen, Nat.mul_comm]
  have hle : b.m_num_bits ≤ b.m_bits.length * w := by
    have hsz := size_le_mul_calc w b.m_num_bits hw
    omega
  have hsplit := natOfBits_split
    (fun pos => (b.m_bits.getD (pos / w) 0).testBit (pos % w))
    (b.m_bits.length * w - b.m_num_bits) b.m_num_bits
  rw [show b.m_num_bits + (b.m_bits.length * w - b.m_num_bits)
      = b.m_bits.length * w from by omega] at hsplit
  rw [hsplit]
  have hzero : natOfBits
      (fun j => (b.m_bits.getD ((j + b.m_num_bits) / w) 0).testBit
        ((j + b.m_num_bits) % w))
      (b.m_bits.length * w - b.m_num_bits) = 0 := by
    apply natOfBits_false
    intro j _
    have hufalse := check_unused w b hw hchk (j + b.m_num_bits) (by omega)
    rw [uget_eq_testBit] at hufalse
    exact hufalse
  rw [hzero, Nat.mul_zero, Nat.add_zero]
  apply natOfBits_congr
  intro j _
  rw [uget_eq_testBit]

lemma map_range_reverse {α : Type} (f : Nat → α) (n : Nat) :
    ((List.range n).map f).reverse = (List.range n).map (fun i => f (n - 1 - i)) := by
  apply List.ext_getElem
  · simp
  · intro i h1 h2
    simp only [List.getElem_reverse, List.getElem_map, List.getElem_range,
      List.length_map, List.length_range]

lemma blocksVal_one : ∀ (n : Nat) (p : Nat → Bool),
    blocksVal 1 ((List.range n).map (fun i => if p i then 1 else 0)) = natOfBits p n
  | 0, _ => rfl
  | n + 1, p => by
      rw [List.range_succ_eq_map, List.map_cons, List.map_map, natOfBits]
      have hmap : ((fun i => if p i then (1 : Nat) else 0) ∘ Nat.succ)
          = (fun i => if p (i + 1) then (1 : Nat) else 0) := by
        funext i
        simp [Function.comp, Nat.succ_eq_add_one]
      rw [hmap, blocksVal, blocksVal_one n (fun j => p (j + 1))]
      norm_num

lemma lexLtBool_eq_lexLtNat : ∀ (bs cs : List Bool),
    lexLtBool bs cs =
      lexLtNat (bs.map (fun x => if x then 1 else 0))
        (cs.map (fun x => if x then 1 else 0))
  | [], [] => rfl
  | [], _ :: _ => rfl
  | _ :: _, [] => rfl
  | x :: xs, y :: ys => by
      rw [List.map_cons, List.map_cons, lexLtBool, lexLtNat,
        lexLtBool_eq_lexLtNat xs ys]
      cases x <;> cases y <;> simp

lemma strLtChar_eq_lexLtBool : ∀ (bs cs : List Bool),
    strLtChar (bs.map (fun x => if x then '1' else '0'))
      (cs.map (fun x => if x then '1' else '0')) = lexLtBool bs cs
  | [], [] => rfl
  | [], _ :: _ => rfl
  | _ :: _, [] => rfl
  | x :: xs, y :: ys => by
      rw [List.map_cons, List.map_cons, strLtChar, lexLtBool,
        strLtChar_eq_lexLtBool xs ys]
      have hlt01 : decide ('0' < '1') = true := by decide
      have hlt10 : decide ('1' < '0') = false := by decide
      have hlt00 : decide ('0' < '0') = false := by decide
      have hlt11 : decide ('1' < '1') = false := by decide
      have heq01 : ('0' == '1') = false := by decide
      have heq10 : ('1' == '0') = false := by decide
      have heq00 : ('0' == '0') = true := by decide
      have heq11 : ('1' == '1') = true := by decide
      cases x <;> cases y <;>
        simp [hlt01, hlt10, hlt00, hlt11, heq01, heq10, heq00, heq11]

lemma to_string_chars_eq_map (w : Nat) (b : DynBitset) :
    to_string_chars w b = (bit_seq_msb w b).map (fun x => if x then '1' else '0') := by
  rw [to_string_chars, bit_seq_msb, List.map_map]
  rfl

lemma bigEndianVal_bit_seq (w : Nat) (b : DynBitset) :
    bigEndianVal 1 ((bit_seq_msb w b).map (fun x => if x then 1 else 0))
      = dbsVal w b := by
  have h1 : ((List.range b.m_num_bits).map
        (fun j => if m_unchecked_test w b j then (1 : Nat) else 0)).reverse
      = (bit_seq_msb w b).map (fun x => if x then (1 : Nat) else 0) := by
    rw [map_range_reverse, bit_seq_msb, List.map_map]
    rfl
  rw [← h1, bigEndianVal_reverse, blocksVal_one, dbsVal]

lemma dbs_lt_iff_val (w : Nat) (a b : DynBitset) (hw : 0 < w)
    (ha : m_check_invariants w a = true) (hb : m_check_invariants w b = true)
    (hsz : a.m_num_bits = b.m_num_bits) :
    dbs_lt w a b = true ↔ dbsVal w a < dbsVal w b := by
  obtain ⟨hlena, hbounda, _⟩ := (check_iff w a).mp ha
  obtain ⟨hlenb, hboundb, _⟩ := (check_iff w b).mp hb
  rw [dbs_lt]
  rcases Decidable.em (b.m_num_bits = 0) with h0 | h0
  · rw [if_pos h0]
    have ha0 : a.m_num_bits = 0 := by omega
    rw [dbsVal, dbsVal, ha0, h0]
    simp [natOfBits]
  · rw [if_neg h0, if_neg (show ¬a.m_num_bits = 0 from by omega), if_pos hsz]
    have hlen : a.m_bits.reverse.length = b.m_bits.reverse.length := by
      simp [hlena, hlenb, hsz]
    have hba : ∀ x ∈ a.m_bits.reverse, x < 2 ^ w := by
      intro x hx
      exact (mem_iff_getD.mpr hbounda) x (List.mem_reverse.mp hx)
    have hbb : ∀ x ∈ b.m_bits.reverse, x < 2 ^ w := by
      intro x hx
      exact (mem_iff_getD.mpr hboundb) x (List.mem_reverse.mp hx)
    rw [lexLtNat_iff_val w _ _ hlen hba hbb, bigEndianVal_reverse,
      bigEndianVal_reverse, blocksVal_eq_dbsVal w a hw ha,
      blocksVal_eq_dbsVal w b hw hb]

lemma strLt_iff_val (w : Nat) (a b : DynBitset)
    (hsz : a.m_num_bits = b.m_num_bits) :
    strLtChar (to_string_chars w a) (to_string_chars w b) = true ↔
      dbsVal w a < dbsVal w b := by
  rw [to_string_chars_eq_map, to_string_chars_eq_map, strLtChar_eq_lexLtBool,
    lexLtBool_eq_lexLtNat]
  have hlen : ((bit_seq_msb w a).map (fun x => if x then (1 : Nat) else 0)).length
      = ((bit_seq_msb w b).map (fun x => if x then (1 : Nat) else 0)).length := by
    simp [bit_seq_msb, hsz]
  have hba : ∀ x ∈ (bit_seq_msb w a).map (fun x => if x then (1 : Nat) else 0),
      x < 2 ^ 1 := by
    intro x hx
    rcases List.mem_map.mp hx with ⟨y, _, hy⟩
    rw [← hy]
    cases y <;> norm_num
  have hbb : ∀ x ∈ (bit_seq_msb w b).map (fun x => if x then (1 : Nat) else 0),
      x < 2 ^ 1 := by
    intro x hx
    rcases List.mem_map.mp hx with ⟨y, _, hy⟩
    rw [← hy]
    cases y <;> norm_num
  rw [lexLtNat_iff_val 1 _ _ hlen hba hbb, bigEndianVal_bit_seq,
    bigEndianVal_bit_seq]

lemma dbs_beq_iff (w : Nat) (a b : DynBitset) (hw : 0 < w)
    (ha : m_check_invariants w a = true) (hb : m_check_invariants w b = true) :
    dbs_beq a b = true ↔
      (a.m_num_bits = b.m_num_bits ∧
       ∀ i, m_unchecked_test w a i = m_unchecked_test w b i) := by
  obtain ⟨hlena, hbounda, _⟩ := (check_iff w a).mp ha
  obtain ⟨hlenb, hboundb, _⟩ := (check_iff w b).mp hb
  rw [dbs_beq]
  simp only [Bool.and_eq_true, beq_iff_eq]
  constructor
  · rintro ⟨h1, h2⟩
    refine ⟨h1, ?_⟩
    intro i
    rw [m_unchecked_test, m_unchecked_test, h2]
  · rintro ⟨h1, h2⟩
    refine ⟨h1, ?_⟩
    apply list_eq_of_getD
    · rw [hlena, hlenb, h1]
    · intro k
      apply Nat.eq_of_testBit_eq
      intro j
      rcases Nat.lt_or_ge j w with hj | hj
      · have hka := h2 (k * w + j)
        rw [uget_eq_testBit, uget_eq_testBit] at hka
        have hdiv : (k * w + j) / w = k := by
          rw [Nat.add_comm, Nat.add_mul_div_right _ _ hw, Nat.div_eq_of_lt hj]
          omega
        have hmod : (k * w + j) % w = j := by
          rw [Nat.add_comm, Nat.add_mul_mod_self_right, Nat.mod_eq_of_lt hj]
        rw [hdiv, hmod] at hka
        exact hka
      · have h1a : (a.m_bits.getD k 0).testBit j = false :=
          Nat.testBit_lt_two_pow
            (lt_of_lt_of_le (hbounda k) (Nat.pow_le_pow_right (by omega) hj))
        have h1b : (b.m_bits.getD k 0).testBit j = false :=
          Nat.testBit_lt_two_pow
            (lt_of_lt_of_le (hboundb k) (Nat.pow_le_pow_right (by omega) hj))
        rw [h1a, h1b]

/-- Claim C8 (corrected): two bitsets are equal iff they have equal size
and identical bits at every position, and for equal sizes `operator<`
agrees with the lexicographic order of the `to_string` forms.  The string
form lists the MOST significant bit first, so the order compares bit
positions from the highest index down — not "starting from index 0" as
the claim's words say (position 0 is the least significant bit; see the
counterexample theorem for the literal reading). -/
theorem claim_C8_comparison_contract (w : Nat) (a b : DynBitset) (hw : 0 < w)
    (ha : m_check_invariants w a = true) (hb : m_check_invariants w b = true) :
    (dbs_beq a b = true ↔
      (a.m_num_bits = b.m_num_bits ∧
       ∀ i, m_unchecked_test w a i = m_unchecked_test w b i)) ∧
    (a.m_num_bits = b.m_num_bits →
      (dbs_lt w a b = true ↔
        strLtChar (to_string_chars w a) (to_string_chars w b) = true)) :=
  ⟨dbs_beq_iff w a b hw ha hb,
   fun hsz => (dbs_lt_iff_val w a b hw ha hb hsz).trans
     (strLt_iff_val w a b hsz).symm⟩

/-- Witness for C8 at `a = 101` (bits 1,0,1 = value 5) and `b = 011`
(bits 0,1,1 = value 6), 3 bits each over 8-bit blocks. -/
theorem claim_C8_comparison_contract_witness :
    (0 < 8 ∧ m_check_invariants 8 ⟨[5], 3⟩ = true ∧
      m_check_invariants 8 ⟨[6], 3⟩ = true) ∧
    ((dbs_beq ⟨[5], 3⟩ ⟨[6], 3⟩ = true ↔
       ((3 : Nat) = 3 ∧
        ∀ i, m_unchecked_test 8 ⟨[5], 3⟩ i = m_unchecked_test 8 ⟨[6], 3⟩ i)) ∧
     ((3 : Nat) = 3 →
       (dbs_lt 8 ⟨[5], 3⟩ ⟨[6], 3⟩ = true ↔
         strLtChar (to_string_chars 8 ⟨[5], 3⟩)
           (to_string_chars 8 ⟨[6], 3⟩) = true))) :=
  ⟨⟨by decide, by decide, by decide⟩,
   claim_C8_comparison_contract 8 ⟨[5], 3⟩ ⟨[6], 3⟩ (by decide) (by decide)
     (by decide)⟩

/-- Claim C8 counterexample to the literal words "lexicographic by bit
position starting from index 0": for `a` with only bit 0 set and `b` with
only bit 1 set (2 bits each), `operator<` and the string order both give
`a < b` (`"01" < "10"`), but the order that compares bit position 0 first
does not. -/
theorem claim_C8_counterexample :
    dbs_lt 8 ⟨[1], 2⟩ ⟨[2], 2⟩ = true ∧
    strLtChar (to_string_chars 8 ⟨[1], 2⟩) (to_string_chars 8 ⟨[2], 2⟩) = true ∧
    lex_by_bit_position_from_zero 8 ⟨[1], 2⟩ ⟨[2], 2⟩ = false :=
  ⟨by decide, by decide, by decide⟩

/-! ### Resize preserves the invariant -/

lemma list_resize_length (l : List Nat) (n v : Nat) :
    (list_resize l n v).length = n := by
  rw [list_resize]
  simp [List.length_take, List.length_replicate]
  omega

lemma list_resize_bound (l : List Nat) (n v w : Nat)
    (hl : ∀ i, l.getD i 0 < 2 ^ w) (hv : v < 2 ^ w) :
    ∀ i, (list_resize l n v).getD i 0 < 2 ^ w := by
  intro i
  rcases Nat.lt_or_ge i (list_resize l n v).length with hi | hi
  · rw [getD_eq_getElem hi]
    have hmem : (list_resize l n v)[i] ∈ list_resize l n v := List.getElem_mem _
    simp only [list_resize] at hmem
    rcases List.mem_append.mp hmem with hm | hm
    · exact (mem_iff_getD.mpr hl) _ (List.mem_of_mem_take hm)
    · have hev : (list_resize l n v)[i] = v := List.eq_of_mem_replicate hm
      rw [hev]
      exact hv
  · rw [getD_len_le hi]
    exact Nat.pos_pow_of_pos _ (by omega)

lemma or_bound (x y w : Nat) (hx : x < 2 ^ w) (hy : y < 2 ^ w) :
    (x ||| y) < 2 ^ w := by
  apply Nat.lt_pow_two_of_testBit
  intro i hi
  rw [Nat.testBit_or,
    Nat.testBit_lt_two_pow
      (lt_of_lt_of_le hx (Nat.pow_le_pow_right (by omega) hi)),
    Nat.testBit_lt_two_pow
      (lt_of_lt_of_le hy (Nat.pow_le_pow_right (by omega) hi))]
  rfl

lemma resize_fill_bound (w : Nat) (value : Bool) : resize_fill w value < 2 ^ w := by
  rw [resize_fill]
  cases value
  · simp [Nat.pos_pow_of_pos _ (show 0 < 2 from by omega)]
  · simp [full_mask_lt]

lemma resize_bits_length (w : Nat) (b : DynBitset) (num_bits : Nat) (value : Bool) :
    (resize_bits w b num_bits value).length = calc_num_blocks w num_bits := by
  rw [resize_bits]
  rcases Decidable.em
      (value = true ∧ b.m_num_bits < num_bits ∧ count_extra_bits w b ≠ 0) with hc | hc
  · rw [if_pos hc, update_block_length, list_resize_length]
  · rw [if_neg hc, list_resize_length]

lemma resize_bits_bound (w : Nat) (b : DynBitset) (num_bits : Nat) (value : Bool)
    (hbound : ∀ i, b.m_bits.getD i 0 < 2 ^ w) :
    ∀ i, (resize_bits w b num_bits value).getD i 0 < 2 ^ w := by
  intro i
  have hres := list_resize_bound b.m_bits (calc_num_blocks w num_bits)
    (resize_fill w value) w hbound (resize_fill_bound w value)
  rw [resize_bits]
  rcases Decidable.em
      (value = true ∧ b.m_num_bits < num_bits ∧ count_extra_bits w b ≠ 0) with hc | hc
  · rw [if_pos hc, update_block_getD]
    rcases Decidable.em
        (b.m_bits.length - 1 = i ∧
         b.m_bits.length - 1 <
           (list_resize b.m_bits (calc_num_blocks w num_bits)
             (resize_fill w value)).length) with hd | hd
    · rw [if_pos hd]
      apply or_bound
      · exact hres _
      · exact Nat.lt_of_le_of_lt Nat.and_le_right (full_mask_lt w)
    · rw [if_neg hd]
      exact hres i
  · rw [if_neg hc]
    exact hres i

lemma resize_check (w : Nat) (b : DynBitset) (num_bits : Nat) (value : Bool)
    (hw : 0 < w) (hchk : m_check_invariants w b = true) :
    m_check_invariants w (resize w b num_bits value) = true := by
  obtain ⟨_, hbound, _⟩ := (check_iff w b).mp hchk
  rw [resize]
  apply zub_check w _ hw
  · show (resize_bits w b num_bits value).length = calc_num_blocks w num_bits
    exact resize_bits_length w b num_bits value
  · intro i
    show (resize_bits w b num_bits value).getD i 0 < 2 ^ w
    exact resize_bits_bound w b num_bits value hbound i

/-- `reset(pos, len)` preserves the class invariant when the range is
within bounds. -/
lemma reset_range_check (w : Nat) (hw : 0 < w) (b : DynBitset) (pos len : Nat)
    (hchk : m_check_invariants w b = true) (hpl : pos + len ≤ b.m_num_bits) :
    m_check_invariants w (reset_range w b pos len) = true := by
  obtain ⟨hlen, hbound, _⟩ := (check_iff w b).mp hchk
  have hrange : pos + len ≤ w * b.m_bits.length := by
    have := size_le_mul_calc w b.m_num_bits hw
    rw [hlen]
    omega
  apply check_of_parts w _ hw
  · rw [reset_range, range_operation_length, range_operation_num_bits, hlen]
  · exact range_operation_bound w hw b pos len _ _ hbound (reset_part_bound w)
      (reset_full_bound w)
  · intro p hp
    rw [reset_range, range_operation_num_bits] at hp
    rw [reset_range_uget w hw b pos len hbound hrange p, if_neg (by omega)]
    exact check_unused w b hw hchk p hp

/-- Claim C1: the zero-unused-bits invariant (packaged in
`m_check_invariants`: block count matches `calc_num_blocks(size())`, every
block fits in `bits_per_block` bits, and the unused high bits of a partial
final block are zero) holds after every public mutator and constructor —
single-bit and range set/reset/flip, set/reset/flip-all, both shifts,
resize, and construction from raw blocks, an unsigned long or a string —
and under it no observer reports a set bit at any position `>= size()`. -/
theorem claim_C1_invariant_preservation (w : Nat) (b : DynBitset) (hw : 0 < w)
    (hchk : m_check_invariants w b = true) :
    (∀ pos, b.m_num_bits ≤ pos → m_unchecked_test w b pos = false) ∧
    (∀ pos len val, pos + len ≤ b.m_num_bits →
      m_check_invariants w (set_range w b pos len val) = true) ∧
    (∀ pos len, pos + len ≤ b.m_num_bits →
      m_check_invariants w (reset_range w b pos len) = true) ∧
    (∀ pos len, pos + len ≤ b.m_num_bits →
      m_check_invariants w (flip_range w b pos len) = true) ∧
    (∀ pos val, pos < b.m_num_bits →
      m_check_invariants w (set_bit w b pos val) = true) ∧
    (∀ pos, pos < b.m_num_bits →
      m_check_invariants w (flip_bit w b pos) = true) ∧
    m_check_invariants w (set_all w b) = true ∧
    m_check_invariants w (reset_all b) = true ∧
    m_check_invariants w (flip_all w b) = true ∧
    (∀ n, m_check_invariants w (left_shift w b n) = true) ∧
    (∀ n, m_check_invariants w (right_shift w b n) = true) ∧
    (∀ num_bits value, m_check_invariants w (resize w b num_bits value) = true) ∧
    (∀ bs : List Nat, (∀ x ∈ bs, x < 2 ^ w) →
      m_check_invariants w (init_from_block_range w bs) = true) ∧
    (∀ uw num_bits value,
      m_check_invariants w (init_from_unsigned_long w uw num_bits value) = true) ∧
    (∀ s : List Char, m_check_invariants w (init_from_string w s) = true) := by
  have hlen := ((check_iff w b).mp hchk).1
  exact ⟨check_unused w b hw hchk,
    fun pos len val hpl => set_range_check w hw b pos len val hchk hpl,
    fun pos len hpl => reset_range_check w hw b pos len hchk hpl,
    fun pos len hpl => flip_range_check w hw b pos len hchk hpl,
    fun pos val hpos => set_bit_check w hw b pos val hchk hpos,
    fun pos hpos => flip_bit_check w hw b pos hchk hpos,
    set_all_check w hw b hlen,
    reset_all_check w hw b hlen,
    flip_all_check w hw b hchk,
    fun n => left_shift_check w hw b n hchk,
    fun n => right_shift_check w hw b n hchk,
    fun num_bits value => resize_check w b num_bits value hw hchk,
    fun bs hbs => init_from_block_range_check w hw bs hbs,
    fun uw num_bits value => init_from_unsigned_long_check w uw num_bits value hw,
    fun s => init_from_string_check w hw s⟩

/-- Witness for C1 on the 6-bit vector `101101` (block 45) over 8-bit
blocks, exercising a range set, flip-all, a shift, a grow-resize and the
string constructor. -/
theorem claim_C1_invariant_preservation_witness :
    (0 < 8 ∧ m_check_invariants 8 ⟨[45], 6⟩ = true) ∧
    m_unchecked_test 8 ⟨[45], 6⟩ 7 = false ∧
    m_check_invariants 8 (set_range 8 ⟨[45], 6⟩ 1 3 true) = true ∧
    m_check_invariants 8 (flip_all 8 ⟨[45], 6⟩) = true ∧
    m_check_invariants 8 (left_shift 8 ⟨[45], 6⟩ 3) = true ∧
    m_check_invariants 8 (resize 8 ⟨[45], 6⟩ 13 true) = true ∧
    m_check_invariants 8 (init_from_string 8 ['1', '1', '0', '1']) = true := by
  have h := claim_C1_invariant_preservation 8 ⟨[45], 6⟩ (by decide) (by decide)
  exact ⟨⟨by decide, by decide⟩,
    h.1 7 (by decide),
    h.2.1 1 3 true (by decide),
    h.2.2.2.2.2.2.2.2.1,
    h.2.2.2.2.2.2.2.2.2.1 3,
    h.2.2.2.2.2.2.2.2.2.2.2.1 13 true,
    h.2.2.2.2.2.2.2.2.2.2.2.2.2.2 ['1', '1', '0', '1']⟩

/-- Claim C7: for every block value `x >= 1`, `lowest_bit x` — computed as
the base-2 logarithm of `x - (x & (x - 1))` — is the index of the least
significant set bit of `x`, and it coincides with count-trailing-zeros
(the value computed by the hardware-intrinsic specializations) for every
such `x`. -/
theorem claim_C7_lowest_bit (x : Nat) (hx : 1 ≤ x) :
    x.testBit (lowest_bit x) = true ∧
    (∀ j, j < lowest_bit x → x.testBit j = false) ∧
    lowest_bit x = Nat.log2 (x - (x &&& (x - 1))) ∧
    lowest_bit x = ctz x := by
  have hc := ctz_spec x hx
  have he := lowest_bit_eq_ctz x hx
  exact ⟨by rw [he]; exact hc.1, by rw [he]; exact hc.2, rfl, he⟩

/-- Witness for C7 at `x = 12`: the least significant set bit of `12 =
0b1100` is bit 2. -/
theorem claim_C7_lowest_bit_witness :
    (1 ≤ 12) ∧ (Nat.testBit 12 (lowest_bit 12) = true ∧
      (∀ j, j < lowest_bit 12 → Nat.testBit 12 j = false) ∧
      lowest_bit 12 = Nat.log2 (12 - (12 &&& (12 - 1))) ∧
      lowest_bit 12 = ctz 12) :=
  ⟨by decide, claim_C7_lowest_bit 12 (by decide)⟩

/-- Claim C9: dereferencing a `dbs_iterator` throws `std::out_of_range`
exactly when the iterator's position is at or beyond the bitset size
captured at construction, and for every position strictly below that
captured size it returns the bit at that position without throwing.  The
constructor conjunct records that `m_len` is the size captured from the
bitset. -/
theorem claim_C9_iterator_deref (w : Nat) (bs : DynBitset) (len pos : Nat) :
    ((dbs_iterator.deref w ⟨len, pos⟩ bs).isOk = false ↔ len ≤ pos) ∧
    (pos < len →
      dbs_iterator.deref w ⟨len, pos⟩ bs = Except.ok (m_unchecked_test w bs pos)) ∧
    (dbs_iterator.mk_from bs pos).m_len = bs.m_num_bits := by
  refine ⟨?_, fun h => ?_, rfl⟩
  · unfold dbs_iterator.deref
    by_cases h : len ≤ pos <;> simp [h, Except.isOk, Except.toBool]
  · unfold dbs_iterator.deref
    simp [Nat.not_le.mpr h]

/-- Witness for C9: on a 3-bit bitset holding `0b101`, dereferencing at
position 2 yields bit 2 (`true`), and at position 3 the captured length 3
makes the dereference fail. -/
theorem claim_C9_iterator_deref_witness :
    ((dbs_iterator.deref 8 ⟨3, 3⟩ ⟨[5], 3⟩).isOk = false) ∧
    (dbs_iterator.deref 8 ⟨3, 2⟩ ⟨[5], 3⟩ =
      Except.ok (m_unchecked_test 8 ⟨[5], 3⟩ 2)) :=
  ⟨(claim_C9_iterator_deref 8 ⟨[5], 3⟩ 3 3).1.mpr (by decide),
   (claim_C9_iterator_deref 8 ⟨[5], 3⟩ 3 2).2.1 (by decide)⟩

/-- Claim C10: `allowed_block_type<T>::value` is true exactly when
`T(-1) > 0` (i.e. `T` is unsigned), except for `T = bool` where it is
explicitly `false`; consequently the static assertion rejects
`Block = bool` at instantiation even though `bool` is an unsigned type
(`bool(-1) > 0` holds). -/
theorem claim_C10_allowed_block_type :
    (∀ t, allowed_block_type t = (minus_one_positive t && !(t == CppIntegral.cbool))) ∧
    (∀ t, minus_one_positive t = ! cppIsSigned t) ∧
    minus_one_positive CppIntegral.cbool = true ∧
    dynamic_bitset_instantiates CppIntegral.cbool = false := by
  refine ⟨fun t => ?_, fun t => ?_, by decide, by decide⟩
  · cases t <;> decide
  · cases t <;> decide

end BoostDynamicBitset
